import Mathlib

/-!
Verification of the batched task-graph scheduler in
lale/lib/rasl/_task_graphs.py.

The development shallowly embeds the data model and algorithms of that file:
batch identifiers, the memoized task-graph builder for fit mode, the three
priority policies, the batch cache (ensure_space / load_input_batches), the
mark_done completion propagation with the absorbing-monoid short circuit,
the space estimate of _Batch.__init__, the entry-point preconditions of
cross_val_score / cross_validate, and a denotational account of the values
computed by fit_with_batches.

Python strings are modelled as lists of code points (List Nat); Python
object dictionaries are modelled as association lists keyed by the memo
key; recursion that the source expresses as loops over mutable state is
expressed as structural recursion (with an explicit fuel argument where the
source loop's termination is by exhaustion of work).
-/

namespace TaskGraphs

/-! ## Batch identifiers

Source: _batch_id(fold, idx) = fold + str(idx); _get_fold(b) = b[0];
_get_idx(b) = int(b[1:]).  A batch id is the one-character fold name
followed by the decimal digits of the index.  We model strings as lists of
Unicode code points, so a digit d is the code point 48 + d.
-/

/-- Decimal digit code points of n, most significant first, computed with a
structural fuel argument (any fuel bigger than n gives the same answer);
mirrors Python str(idx). -/
def decDigitsAux : Nat → Nat → List Nat
  | 0, _ => []
  | fuel + 1, n =>
    if n < 10 then [48 + n]
    else decDigitsAux fuel (n / 10) ++ [48 + n % 10]

/-- Decimal digit code points of n, most significant first; str(n). -/
def decDigits (n : Nat) : List Nat :=
  decDigitsAux (n + 1) n

/-- Source _batch_id: fold letter (a code point) followed by str(idx). -/
def batchId (fold : Nat) (idx : Nat) : List Nat :=
  fold :: decDigits idx

/-- Source _get_fold: first character of the batch id. -/
def getFold (b : List Nat) : Nat :=
  b.headD 0

/-- Value of a most-significant-first decimal digit string (int(s)). -/
def digitsVal (ds : List Nat) : Nat :=
  ds.foldl (fun a d => a * 10 + (d - 48)) 0

/-- Source _get_idx: int(batch_id[1:]). -/
def getIdx (b : List Nat) : Nat :=
  digitsVal b.tail

/-- Python string comparison s1 < s2: lexicographic on code points.  This
is the comparison applied to batch ids wherever the scheduler sorts them
(inside the batch_ids component of every priority tuple). -/
def strLt : List Nat → List Nat → Bool
  | _, [] => false
  | [], _ :: _ => true
  | a :: as, b :: bs => decide (a < b) || (decide (a = b) && strLt as bs)

/-- Lexicographic order on the pair (fold, index): the order the spec says
batch ids are sorted by. -/
def foldIdxLt (f1 i1 f2 i2 : Nat) : Prop :=
  f1 < f2 ∨ (f1 = f2 ∧ i1 < i2)

instance (f1 i1 f2 i2 : Nat) : Decidable (foldIdxLt f1 i1 f2 i2) := by
  unfold foldIdxLt; infer_instance

/-! Basic facts about decimal digits. -/

theorem decDigitsAux_fuel_irrelevant :
    ∀ fuel1 fuel2 n, n < fuel1 → n < fuel2 →
      decDigitsAux fuel1 n = decDigitsAux fuel2 n := by
  intro fuel1
  induction fuel1 with
  | zero => intro fuel2 n h1; omega
  | succ f ih =>
    intro fuel2 n h1 h2
    cases fuel2 with
    | zero => omega
    | succ f2 =>
      simp only [decDigitsAux]
      by_cases hn : n < 10
      · simp [hn]
      · simp only [if_neg hn]
        rw [ih f2 (n / 10) (by omega) (by omega)]

theorem decDigits_lt_10 (n : Nat) (h : n < 10) : decDigits n = [48 + n] := by
  simp [decDigits, decDigitsAux, h]

theorem decDigits_ge_10 (n : Nat) (h : 10 ≤ n) :
    decDigits n = decDigits (n / 10) ++ [48 + n % 10] := by
  have h2 : decDigitsAux (n + 1) n
      = decDigitsAux n (n / 10) ++ [48 + n % 10] := by
    simp only [decDigitsAux, if_neg (show ¬ n < 10 by omega)]
  have h3 : decDigitsAux n (n / 10) = decDigitsAux (n / 10 + 1) (n / 10) :=
    decDigitsAux_fuel_irrelevant n (n / 10 + 1) (n / 10)
      (by have := Nat.div_lt_self (show 0 < n by omega) (show 1 < 10 by omega); omega)
      (by omega)
  show decDigitsAux (n + 1) n = decDigitsAux (n / 10 + 1) (n / 10) ++ [48 + n % 10]
  rw [h2, h3]

theorem decDigits_digits (n : Nat) : ∀ d ∈ decDigits n, 48 ≤ d ∧ d < 58 := by
  induction n using Nat.strong_induction_on with
  | _ n ih =>
    by_cases h : n < 10
    · rw [decDigits_lt_10 n h]; intro d hd; simp at hd; omega
    · rw [decDigits_ge_10 n (by omega)]
      intro d hd
      rcases List.mem_append.mp hd with h1 | h2
      · exact ih (n / 10) (Nat.div_lt_self (by omega) (by omega)) d h1
      · simp at h2; omega

theorem digitsVal_append_digit (ds : List Nat) (d : Nat) :
    digitsVal (ds ++ [d]) = digitsVal ds * 10 + (d - 48) := by
  simp [digitsVal, List.foldl_append]

theorem digitsVal_decDigits (n : Nat) : digitsVal (decDigits n) = n := by
  induction n using Nat.strong_induction_on with
  | _ n ih =>
    by_cases h : n < 10
    · rw [decDigits_lt_10 n h]; simp [digitsVal]
    · rw [decDigits_ge_10 n (by omega), digitsVal_append_digit]
      rw [ih (n / 10) (Nat.div_lt_self (by omega) (by omega))]
      omega

/-- Source _get_idx inverts _batch_id. -/
theorem getIdx_batchId (fold idx : Nat) : getIdx (batchId fold idx) = idx := by
  simp [getIdx, batchId, digitsVal_decDigits]

theorem getFold_batchId (fold idx : Nat) : getFold (batchId fold idx) = fold := by
  simp [getFold, batchId]

theorem digitsVal_cons (c : Nat) (cs : List Nat) :
    digitsVal (c :: cs) = (c - 48) * 10 ^ cs.length + digitsVal cs := by
  induction cs using List.reverseRecOn with
  | nil => simp [digitsVal]
  | append_singleton cs d ihc =>
    have h1 : (c :: cs) ++ [d] = c :: (cs ++ [d]) := by simp
    rw [← h1, digitsVal_append_digit, ihc, digitsVal_append_digit]
    simp only [List.length_append, List.length_singleton, pow_succ]
    ring

theorem digitsVal_lt (ds : List Nat) (hds : ∀ d ∈ ds, 48 ≤ d ∧ d < 58) :
    digitsVal ds < 10 ^ ds.length := by
  induction ds using List.reverseRecOn with
  | nil => simp [digitsVal]
  | append_singleton ds d ih =>
    rw [digitsVal_append_digit]
    have h1 : digitsVal ds < 10 ^ ds.length := by
      apply ih; intro x hx; exact hds x (List.mem_append.mpr (Or.inl hx))
    have h2 : 48 ≤ d ∧ d < 58 := hds d (List.mem_append.mpr (Or.inr (by simp)))
    simp only [List.length_append, List.length_singleton, pow_succ]
    omega

theorem digit_lex_lt (x y vx vy X : Nat) (hxy : x < y) (hvx : vx < X) :
    x * X + vx < y * X + vy := by
  calc x * X + vx < x * X + X := by omega
    _ = (x + 1) * X := by ring
    _ ≤ y * X := Nat.mul_le_mul (by omega) (le_refl X)
    _ ≤ y * X + vy := Nat.le_add_right _ _

/-- On equal-length decimal digit strings, lexicographic comparison agrees
with numeric comparison. -/
theorem strLt_digits_iff (xs ys : List Nat)
    (hlen : xs.length = ys.length)
    (hx : ∀ d ∈ xs, 48 ≤ d ∧ d < 58) (hy : ∀ d ∈ ys, 48 ≤ d ∧ d < 58) :
    (strLt xs ys = true ↔ digitsVal xs < digitsVal ys) := by
  induction xs generalizing ys with
  | nil =>
    cases ys with
    | nil => simp [strLt, digitsVal]
    | cons b bs => simp at hlen
  | cons a as ih =>
    cases ys with
    | nil => simp at hlen
    | cons b bs =>
      have ha : 48 ≤ a ∧ a < 58 := hx a (by simp)
      have hb : 48 ≤ b ∧ b < 58 := hy b (by simp)
      have has : ∀ d ∈ as, 48 ≤ d ∧ d < 58 := fun d hd => hx d (by simp [hd])
      have hbs : ∀ d ∈ bs, 48 ≤ d ∧ d < 58 := fun d hd => hy d (by simp [hd])
      have hlen2 : as.length = bs.length := by simpa using hlen
      have hva : digitsVal as < 10 ^ as.length := digitsVal_lt as has
      have hvb : digitsVal bs < 10 ^ bs.length := digitsVal_lt bs hbs
      rw [digitsVal_cons a as, digitsVal_cons b bs, ← hlen2]
      simp only [strLt, Bool.or_eq_true, Bool.and_eq_true, decide_eq_true_eq]
      constructor
      · intro h
        rcases h with h | ⟨hab, htl⟩
        · exact digit_lex_lt (a - 48) (b - 48) _ _ _ (by omega) hva
        · subst hab
          have := (ih bs hlen2 has hbs).mp htl
          omega
      · intro h
        by_cases hab : a < b
        · exact Or.inl hab
        · by_cases heq : a = b
          · subst heq
            refine Or.inr ⟨rfl, (ih bs hlen2 has hbs).mpr ?_⟩
            omega
          · exfalso
            have hba : b < a := by omega
            have := digit_lex_lt (b - 48) (a - 48) (digitsVal bs) (digitsVal as)
              (10 ^ as.length) (by omega) (by rw [hlen2]; exact hvb)
            omega

/-! ## Claim C2 -/

/-- Claim C2, counterexample.  The program compares batch ids as strings
(code-point lexicographic); the claim says this agrees with lexicographic
order on (fold, index).  At fold d (code point 100) and indices 10 and 2
the string order says d10 < d2 while the (fold, index) order says
(d, 2) < (d, 10), so the two orders disagree. -/
theorem batchId_order_cex :
    strLt (batchId 100 10) (batchId 100 2) = true ∧
      ¬ foldIdxLt 100 10 100 2 := by
  constructor
  · decide
  · decide

/-- Claim C2, amended: the string comparison the scheduler uses on batch
ids agrees with lexicographic (fold, index) order whenever the two indices
have decimal representations of the same length (in particular whenever all
indices are below 10); for indices whose decimal representations have
different lengths the string order can disagree with the (fold, index)
order (see the counterexample). -/
theorem batchId_order_amended (f1 i1 f2 i2 : Nat)
    (hlen : (decDigits i1).length = (decDigits i2).length) :
    (strLt (batchId f1 i1) (batchId f2 i2) = true ↔ foldIdxLt f1 i1 f2 i2) := by
  have hiff := strLt_digits_iff (decDigits i1) (decDigits i2) hlen
    (decDigits_digits i1) (decDigits_digits i2)
  rw [digitsVal_decDigits, digitsVal_decDigits] at hiff
  simp only [batchId, strLt, Bool.or_eq_true, Bool.and_eq_true,
    decide_eq_true_eq, foldIdxLt, hiff]

/-- Claim C2, amended, witness at fold d (100) and indices 3 and 7. -/
theorem batchId_order_amended_witness :
    (decDigits 3).length = (decDigits 7).length ∧
      (strLt (batchId 100 3) (batchId 100 7) = true ↔ foldIdxLt 100 3 100 7) :=
  ⟨by decide, batchId_order_amended 100 3 100 7 (by decide)⟩

/-! ## Batch space estimate (_Batch.__init__)

Source lines 187-196: in the constructor, if X is a pandas DataFrame and y
a pandas Series then space = int(X.memory_usage().sum()) + y.memory_usage();
otherwise space = 1 (the source comments call 1 a place-holder value for
Spark).  The space field is assigned only here and never reassigned, so the
constructor's value is the batch's space for its whole lifetime.  The
representation tags below follow the isinstance checks of __init__, spill
and the status property: X may be a pandas DataFrame, a numpy ndarray or a
Spark DataFrame; y may be a pandas Series, a numpy ndarray or a Spark
DataFrame. -/

/-- Representation of the feature table X of a batch, with its actual
in-memory footprint where one is defined (X.memory_usage().sum() for
pandas, nbytes for numpy); Spark frames are distributed and carry none. -/
inductive DataRep where
  | pandasDF (memUsageSum : Nat)
  | numpyArr (memBytes : Nat)
  | sparkDF
deriving DecidableEq, Repr

/-- Representation of the label column y of a batch. -/
inductive SeriesRep where
  | pandasSeries (memUsage : Nat)
  | numpyArr (memBytes : Nat)
  | sparkDF
deriving DecidableEq, Repr

/-- Space estimate assigned by _Batch.__init__: the summed memory usage for
a (pandas DataFrame, pandas Series) pair, and the constant 1 for every
other representation pair. -/
def batchSpace : DataRep → SeriesRep → Nat
  | DataRep.pandasDF u, SeriesRep.pandasSeries v => u + v
  | _, _ => 1

/-- The _BatchStatus.RESIDENT cases of the _Batch.status property that are
in-memory tabular data (all resident combinations except the Spark pair). -/
def inMemoryTabular : DataRep → SeriesRep → Bool
  | DataRep.pandasDF _, SeriesRep.pandasSeries _ => true
  | DataRep.numpyArr _, SeriesRep.pandasSeries _ => true
  | DataRep.numpyArr _, SeriesRep.numpyArr _ => true
  | _, _ => false

/-- Actual memory footprint of the feature table (0 for distributed
frames, which have no single-machine footprint; only used under an
in-memory hypothesis). -/
def dataMemUsage : DataRep → Nat
  | DataRep.pandasDF u => u
  | DataRep.numpyArr b => b
  | DataRep.sparkDF => 0

/-- Actual memory footprint of the label column. -/
def seriesMemUsage : SeriesRep → Nat
  | SeriesRep.pandasSeries v => v
  | SeriesRep.numpyArr b => b
  | SeriesRep.sparkDF => 0

/-- Whether the pair is the (pandas DataFrame, pandas Series) case of the
constructor's isinstance test. -/
def isPandasPair : DataRep → SeriesRep → Bool
  | DataRep.pandasDF _, SeriesRep.pandasSeries _ => true
  | _, _ => false

/-! ## Claim C9 -/

/-- Claim C9, counterexample.  A batch whose X is a numpy ndarray of 1000
bytes and whose y is a pandas Series of 8 bytes is an in-memory tabular
batch (the status property reports it RESIDENT, spill supports it), yet the
constructor assigns it the placeholder space 1, not the exact footprint
1008 — so the space estimate is not exact for every in-memory tabular
batch, and the placeholder 1 is not used only for Spark frames. -/
theorem batchSpace_numpy_cex :
    inMemoryTabular (DataRep.numpyArr 1000) (SeriesRep.pandasSeries 8) = true ∧
      batchSpace (DataRep.numpyArr 1000) (SeriesRep.pandasSeries 8) = 1 ∧
      dataMemUsage (DataRep.numpyArr 1000)
          + seriesMemUsage (SeriesRep.pandasSeries 8) = 1008 := by
  refine ⟨rfl, rfl, rfl⟩

/-- Claim C9, amended: the space estimate computed once in the constructor
is exact (summed feature-table memory usage plus label-column memory usage)
precisely when X is a pandas DataFrame and y a pandas Series; every other
representation pair — including in-memory numpy batches, not only
distributed Spark frames — receives the placeholder constant 1. -/
theorem batchSpace_amended (X : DataRep) (y : SeriesRep) :
    (isPandasPair X y = true →
        batchSpace X y = dataMemUsage X + seriesMemUsage y) ∧
      (isPandasPair X y = false → batchSpace X y = 1) := by
  cases X <;> cases y <;> simp [isPandasPair, batchSpace, dataMemUsage, seriesMemUsage]

/-- Claim C9, amended, witness: a pandas pair gets the exact sum, spilled
through the first conjunct at a concrete batch. -/
theorem batchSpace_amended_witness :
    isPandasPair (DataRep.pandasDF 40) (SeriesRep.pandasSeries 2) = true ∧
      batchSpace (DataRep.pandasDF 40) (SeriesRep.pandasSeries 2)
        = dataMemUsage (DataRep.pandasDF 40)
            + seriesMemUsage (SeriesRep.pandasSeries 2) :=
  ⟨by decide,
    (batchSpace_amended (DataRep.pandasDF 40) (SeriesRep.pandasSeries 2)).1
      (by decide)⟩

/-! ## Entry points cross_val_score and cross_validate

Source lines 1252-1343.  Both functions begin with
assert n_batches == n_folds * n_batches_per_fold, then build the fold
names [chr(ord(d) + i) for i in range(n_folds)], build the task graph,
run it, and extract one score per fold (and, for cross_validate with
return_estimator, one trained pipeline per fold).  The assertion is the
first statement, so on failure nothing else happens.  The per-fold
extraction after the run is abstracted as an opaque function (its value
comes from the executed graph, which claim C10 does not constrain). -/

/-- Fold name chr(ord(d) + i) as a code point. -/
def foldName (i : Nat) : Nat := 100 + i

/-- Skeleton of cross_val_score: the entry assertion, then one extracted
score per fold, in fold order.  none models the AssertionError raised
before any task graph is built or batch consumed (the error branch invokes
nothing else). -/
def crossValScore {Score : Type} (nBatches nFolds nBatchesPerFold : Nat)
    (extractScore : Nat → Score) : Option (List Score) :=
  if nBatches = nFolds * nBatchesPerFold then
    some ((List.range nFolds).map (fun i => extractScore (foldName i)))
  else none

/-- Skeleton of cross_validate: the same entry assertion; the result holds
the test_score list and, when return_estimator is set, the estimator
list with one trained pipeline per fold. -/
def crossValidate {Score Pipe : Type} (nBatches nFolds nBatchesPerFold : Nat)
    (returnEstimator : Bool) (extractScore : Nat → Score)
    (extractPipeline : Nat → Pipe) : Option (List Score × Option (List Pipe)) :=
  if nBatches = nFolds * nBatchesPerFold then
    some ((List.range nFolds).map (fun i => extractScore (foldName i)),
      if returnEstimator then
        some ((List.range nFolds).map (fun i => extractPipeline (foldName i)))
      else none)
  else none

/-! ## Claim C10 -/

/-- Claim C10: cross_val_score and cross_validate require
n_batches = n_folds * n_batches_per_fold at the public interface; when it
fails they raise (return none) before building any task graph or consuming
any batch, and when it holds every returned score list (and estimator
list) has exactly n_folds entries. -/
theorem crossVal_precondition {Score Pipe : Type}
    (nBatches nFolds nBatchesPerFold : Nat) (returnEstimator : Bool)
    (extractScore : Nat → Score) (extractPipeline : Nat → Pipe) :
    (nBatches ≠ nFolds * nBatchesPerFold →
        crossValScore nBatches nFolds nBatchesPerFold extractScore = none ∧
        crossValidate nBatches nFolds nBatchesPerFold returnEstimator
          extractScore extractPipeline = none) ∧
      (nBatches = nFolds * nBatchesPerFold →
        (∃ scores, crossValScore nBatches nFolds nBatchesPerFold extractScore
            = some scores ∧ scores.length = nFolds) ∧
        (∃ scores ests, crossValidate nBatches nFolds nBatchesPerFold
            returnEstimator extractScore extractPipeline = some (scores, ests) ∧
          scores.length = nFolds ∧
          (returnEstimator = true →
            ∃ pipes, ests = some pipes ∧ pipes.length = nFolds))) := by
  constructor
  · intro h
    constructor
    · simp [crossValScore, h]
    · simp [crossValidate, h]
  · intro h
    constructor
    · refine ⟨(List.range nFolds).map (fun i => extractScore (foldName i)), ?_, ?_⟩
      · simp [crossValScore, h]
      · simp
    · refine ⟨(List.range nFolds).map (fun i => extractScore (foldName i)),
        (if returnEstimator then
          some ((List.range nFolds).map (fun i => extractPipeline (foldName i)))
        else none), ?_, ?_, ?_⟩
      · simp [crossValidate, h]
      · simp
      · intro hre
        subst hre
        exact ⟨(List.range nFolds).map (fun i => extractPipeline (foldName i)),
          by simp, by simp⟩

/-- Claim C10, witness at 6 batches, 3 folds, 2 batches per fold (and at
the failing configuration 5 batches): applies the theorem at concrete
arguments, discharging both hypotheses. -/
theorem crossVal_precondition_witness :
    ((5 : Nat) ≠ 3 * 2 ∧
      @crossValScore Nat 5 3 2 (fun f => f) = none) ∧
    ((6 : Nat) = 3 * 2 ∧
      ∃ scores, @crossValScore Nat 6 3 2 (fun f => f) = some scores ∧
        scores.length = 3) := by
  constructor
  · exact ⟨by decide,
      ((@crossVal_precondition Nat Nat 5 3 2 false
        (fun f => f) (fun f => f)).1 (by decide)).1⟩
  · exact ⟨by decide,
      ((@crossVal_precondition Nat Nat 6 3 2 false
        (fun f => f) (fun f => f)).2 (by decide)).1⟩

/-! ## Batch cache (_BatchCache)

Source lines 796-894.  The cache tracks which apply-task batches are
RESIDENT and which are SPILLED.  We model its view of the batches as a
CacheState holding the resident batches and the spilled batches as two
lists (batches are distinct Python objects; bid stands for the object's
identity).  ensure_space (lines 848-877) collects the resident batches,
sorts them ascending by the priority policy's batch_priority, and, while
the resident space plus the needed amount exceeds the ceiling, pops the
last (least important) batch: if it is in the protected no-spill set it
only logs and continues, otherwise it spills it (asserting that the spill
directory exists) and deducts its space; when the candidate list runs out
while still over the ceiling it logs a warning and breaks.  The running
resident-space counter of the source equals the sum of the spaces of the
unprocessed candidates plus the skipped (kept) ones, which is how the model
phrases the loop condition.  The spillDir flag mirrors _BatchCache.__enter__,
which creates the spill directory whenever a finite ceiling is configured;
the assert self.spill_path is not None is modelled as the none result. -/

/-- A batch as the cache sees it: object identity, space estimate, and
nothing else (residency is encoded by which CacheState list holds it). -/
structure CBatch where
  bid : Nat
  space : Nat
deriving DecidableEq, Repr

/-- Resident and spilled batches of a run. -/
structure CacheState where
  resident : List CBatch
  spilledB : List CBatch
deriving DecidableEq, Repr

/-- Sum of the space estimates of a list of batches. -/
def spaceOf (l : List CBatch) : Nat :=
  (l.map (fun b => b.space)).sum

theorem spaceOf_cons (b : CBatch) (l : List CBatch) :
    spaceOf (b :: l) = b.space + spaceOf l := by
  simp [spaceOf]

theorem spaceOf_append (l1 l2 : List CBatch) :
    spaceOf (l1 ++ l2) = spaceOf l1 + spaceOf l2 := by
  simp [spaceOf]

/-- Insertion step of the ascending sort by batch priority. -/
def insertByKey (key : CBatch → Nat) (b : CBatch) : List CBatch → List CBatch
  | [] => [b]
  | c :: cs => if key b ≤ key c then b :: c :: cs else c :: insertByKey key b cs

/-- Ascending sort of the resident batches by batch priority
(resident_batches.sort(key=...) of the source). -/
def sortByKey (key : CBatch → Nat) : List CBatch → List CBatch
  | [] => []
  | b :: bs => insertByKey key b (sortByKey key bs)

theorem mem_insertByKey (key : CBatch → Nat) (b x : CBatch) :
    ∀ l, x ∈ insertByKey key b l ↔ x = b ∨ x ∈ l := by
  intro l
  induction l with
  | nil => simp [insertByKey]
  | cons c cs ih =>
    simp only [insertByKey]
    by_cases h : key b ≤ key c
    · simp [h]
    · simp only [if_neg h, List.mem_cons, ih]
      tauto

theorem mem_sortByKey (key : CBatch → Nat) (x : CBatch) :
    ∀ l, x ∈ sortByKey key l ↔ x ∈ l := by
  intro l
  induction l with
  | nil => simp [sortByKey]
  | cons b bs ih => simp [sortByKey, mem_insertByKey, ih]

/-- The eviction loop of ensure_space.  cands holds the not-yet-popped
resident batches in pop order (descending priority); kept holds popped
batches that were protected by the no-spill set (they stay resident and
keep counting toward the resident space, as in the source); spilledAcc
holds the batches spilled so far.  Returns (resident batches, batches
spilled by this call, warned) or none when a spill is required but no
spill directory exists. -/
def esGo (maxR needed : Nat) (noSpill : List Nat) (spillDir : Bool) :
    List CBatch → List CBatch → List CBatch →
      Option (List CBatch × List CBatch × Bool)
  | cands, kept, spilledAcc =>
    if spaceOf cands + spaceOf kept + needed > maxR then
      match cands with
      | [] => some (kept, spilledAcc, true)
      | b :: rest =>
        if b.bid ∈ noSpill then
          esGo maxR needed noSpill spillDir rest (b :: kept) spilledAcc
        else if spillDir then
          esGo maxR needed noSpill spillDir rest kept (b :: spilledAcc)
        else none
    else some (cands ++ kept, spilledAcc, false)

/-- Source ensure_space(amount_needed, no_spill_set): sort the resident
batches ascending by priority, then run the eviction loop popping from the
end; the second component of the result tells whether the warning for an
unmeetable ceiling was logged. -/
def ensureSpace (maxR needed : Nat) (noSpill : List Nat)
    (bprio : CBatch → Nat) (spillDir : Bool) (cs : CacheState) :
    Option (CacheState × Bool) :=
  match esGo maxR needed noSpill spillDir
      ((sortByKey bprio cs.resident).reverse) [] [] with
  | none => none
  | some (res, newSpilled, warned) =>
    some ({ resident := res, spilledB := newSpilled ++ cs.spilledB }, warned)

/-- With a spill directory available the eviction loop always returns. -/
theorem esGo_total (maxR needed : Nat) (noSpill : List Nat) :
    ∀ cands kept spilledAcc, ∃ out,
      esGo maxR needed noSpill true cands kept spilledAcc = some out := by
  intro cands
  induction cands with
  | nil =>
    intro kept spilledAcc
    unfold esGo
    by_cases h : spaceOf [] + spaceOf kept + needed > maxR
    · rw [if_pos h]; exact ⟨(kept, spilledAcc, true), rfl⟩
    · rw [if_neg h]; exact ⟨([] ++ kept, spilledAcc, false), rfl⟩
  | cons b rest ih =>
    intro kept spilledAcc
    unfold esGo
    by_cases h : spaceOf (b :: rest) + spaceOf kept + needed > maxR
    · simp only [if_pos h]
      by_cases hb : b.bid ∈ noSpill
      · simpa [hb] using ih (b :: kept) spilledAcc
      · simpa [hb] using ih kept (b :: spilledAcc)
    · rw [if_neg h]; exact ⟨(b :: rest ++ kept, spilledAcc, false), rfl⟩

/-- Postcondition of the eviction loop: when it returns without the
warning, the surviving resident space fits under the ceiling; when it
returns with the warning, every surviving resident batch that was not in
kept at entry is protected by the no-spill set. -/
theorem esGo_post (maxR needed : Nat) (noSpill : List Nat) (spillDir : Bool) :
    ∀ cands kept spilledAcc res sp w,
      esGo maxR needed noSpill spillDir cands kept spilledAcc
          = some (res, sp, w) →
      (w = false → spaceOf res + needed ≤ maxR) ∧
      (w = true → ∀ b ∈ res, b ∈ kept ∨ b.bid ∈ noSpill) := by
  intro cands
  induction cands with
  | nil =>
    intro kept spilledAcc res sp w h
    unfold esGo at h
    by_cases hc : spaceOf [] + spaceOf kept + needed > maxR
    · simp only [if_pos hc] at h
      simp only [Option.some.injEq, Prod.mk.injEq] at h
      obtain ⟨h1, h2, h3⟩ := h
      subst h1; subst h3
      refine ⟨by simp, ?_⟩
      intro _ b hb
      exact Or.inl hb
    · simp only [if_neg hc] at h
      simp only [Option.some.injEq, Prod.mk.injEq] at h
      obtain ⟨h1, h2, h3⟩ := h
      subst h1; subst h3
      refine ⟨fun _ => ?_, fun hw => by simp at hw⟩
      simp only [List.nil_append]
      simp [spaceOf] at hc ⊢
      omega
  | cons b rest ih =>
    intro kept spilledAcc res sp w h
    unfold esGo at h
    by_cases hc : spaceOf (b :: rest) + spaceOf kept + needed > maxR
    · simp only [if_pos hc] at h
      by_cases hb : b.bid ∈ noSpill
      · simp only [if_pos hb] at h
        have := ih (b :: kept) spilledAcc res sp w h
        refine ⟨this.1, ?_⟩
        intro hw x hx
        rcases this.2 hw x hx with hk | hn
        · rcases List.mem_cons.mp hk with hxb | hk2
          · exact Or.inr (hxb ▸ hb)
          · exact Or.inl hk2
        · exact Or.inr hn
      · simp only [if_neg hb] at h
        cases spillDir with
        | false => simp at h
        | true =>
          simp only [if_pos rfl] at h
          exact ih kept (b :: spilledAcc) res sp w h
    · simp only [if_neg hc] at h
      simp only [Option.some.injEq, Prod.mk.injEq] at h
      obtain ⟨h1, h2, h3⟩ := h
      subst h1; subst h3
      refine ⟨fun _ => ?_, fun hw => by simp at hw⟩
      simp only [spaceOf_cons, spaceOf_append] at hc ⊢
      omega

/-- Batches protected by the no-spill set survive the eviction loop
resident, as do batches already in kept. -/
theorem esGo_keeps_noSpill (maxR needed : Nat) (noSpill : List Nat)
    (spillDir : Bool) :
    ∀ cands kept spilledAcc res sp w,
      esGo maxR needed noSpill spillDir cands kept spilledAcc
          = some (res, sp, w) →
      ∀ x, (x ∈ cands ∧ x.bid ∈ noSpill) ∨ x ∈ kept → x ∈ res := by
  intro cands
  induction cands with
  | nil =>
    intro kept spilledAcc res sp w h x hx
    rcases hx with ⟨hc, _⟩ | hk
    · simp at hc
    · unfold esGo at h
      by_cases hc : spaceOf [] + spaceOf kept + needed > maxR
      · simp only [if_pos hc] at h
        simp only [Option.some.injEq, Prod.mk.injEq] at h
        obtain ⟨h1, _, _⟩ := h
        subst h1; exact hk
      · simp only [if_neg hc] at h
        simp only [Option.some.injEq, Prod.mk.injEq] at h
        obtain ⟨h1, _, _⟩ := h
        subst h1; simpa using hk
  | cons b rest ih =>
    intro kept spilledAcc res sp w h x hx
    unfold esGo at h
    by_cases hc : spaceOf (b :: rest) + spaceOf kept + needed > maxR
    · simp only [if_pos hc] at h
      by_cases hb : b.bid ∈ noSpill
      · simp only [if_pos hb] at h
        apply ih (b :: kept) spilledAcc res sp w h x
        rcases hx with ⟨hcm, hns⟩ | hk
        · rcases List.mem_cons.mp hcm with hxb | hr
          · exact Or.inr (by simp [hxb])
          · exact Or.inl ⟨hr, hns⟩
        · exact Or.inr (by simp [hk])
      · simp only [if_neg hb] at h
        cases spillDir with
        | false => simp at h
        | true =>
          simp only [if_pos rfl] at h
          apply ih kept (b :: spilledAcc) res sp w h x
          rcases hx with ⟨hcm, hns⟩ | hk
          · rcases List.mem_cons.mp hcm with hxb | hr
            · exact absurd (hxb ▸ hns) hb
            · exact Or.inl ⟨hr, hns⟩
          · exact Or.inr hk
    · simp only [if_neg hc] at h
      simp only [Option.some.injEq, Prod.mk.injEq] at h
      obtain ⟨h1, _, _⟩ := h
      subst h1
      rcases hx with ⟨hcm, _⟩ | hk
      · exact List.mem_append.mpr (Or.inl hcm)
      · exact List.mem_append.mpr (Or.inr hk)

/-! ## Claim C7 -/

/-- Claim C7: with the spill directory configured (as _BatchCache.__enter__
guarantees whenever a finite ceiling is set), ensure_space always returns
(it never raises): either it got the resident space plus the needed amount
at or below the ceiling, or no evictable batch remained — every batch still
resident is in the protected no-spill set — in which case it has logged the
warning and returned with the total over budget instead of failing. -/
theorem ensure_space_soft (maxR needed : Nat) (noSpill : List Nat)
    (bprio : CBatch → Nat) (cs : CacheState) :
    ∃ cs2 warned,
      ensureSpace maxR needed noSpill bprio true cs = some (cs2, warned) ∧
      (warned = false → spaceOf cs2.resident + needed ≤ maxR) ∧
      (warned = true → ∀ b ∈ cs2.resident, b.bid ∈ noSpill) := by
  obtain ⟨⟨res, sp, w⟩, hout⟩ := esGo_total maxR needed noSpill
    ((sortByKey bprio cs.resident).reverse) [] []
  have hpost := esGo_post maxR needed noSpill true _ _ _ _ _ _ hout
  refine ⟨{ resident := res, spilledB := sp ++ cs.spilledB }, w, ?_, ?_, ?_⟩
  · simp only [ensureSpace, hout]
  · exact hpost.1
  · intro hw b hb
    rcases hpost.2 hw b hb with hk | hn
    · simp at hk
    · exact hn

/-- Claim C7, witness: a cache with two resident batches and ceiling 10,
needing 7 more with batch 1 protected; the theorem applies and the
eviction evicts the unprotected batch. -/
theorem ensure_space_soft_witness :
    ∃ cs2 warned,
      ensureSpace 10 7 [1] (fun b => b.bid)
        true { resident := [⟨1, 4⟩, ⟨2, 5⟩], spilledB := [] }
        = some (cs2, warned) ∧
      (warned = false → spaceOf cs2.resident + 7 ≤ 10) ∧
      (warned = true → ∀ b ∈ cs2.resident, b.bid ∈ [1]) :=
  ensure_space_soft 10 7 [1] (fun b => b.bid)
    { resident := [⟨1, 4⟩, ⟨2, 5⟩], spilledB := [] }

/-! ## load_input_batches (source lines 879-894)

For each apply predecessor of a task whose batch is SPILLED, the cache
first makes room for it (with all the predecessors' batches protected by
the no-spill set computed once up front) and then reloads it; afterwards
it asserts that every predecessor batch is RESIDENT.  The model walks the
predecessor identities in order; none models the assertion failure for a
predecessor with no batch at all. -/

/-- Identities of the batches in a list. -/
def bidsOf (l : List CBatch) : List Nat :=
  l.map (fun b => b.bid)

/-- Remove the first batch with the given identity (load_spilled takes the
batch out of the spilled set). -/
def removeBid (pid : Nat) : List CBatch → List CBatch
  | [] => []
  | b :: bs => if b.bid = pid then bs else b :: removeBid pid bs

/-- The reload loop of load_input_batches over the predecessor batch
identities. -/
def libGo (maxR : Nat) (bprio : CBatch → Nat) (spillDir : Bool)
    (noSpill : List Nat) : List Nat → CacheState → Option CacheState
  | [], cs => some cs
  | pid :: rest, cs =>
    if pid ∈ bidsOf cs.resident then
      libGo maxR bprio spillDir noSpill rest cs
    else
      match cs.spilledB.find? (fun b => b.bid == pid) with
      | none => none
      | some b =>
        match ensureSpace maxR b.space noSpill bprio spillDir cs with
        | none => none
        | some (cs2, _warned) =>
          libGo maxR bprio spillDir noSpill rest
            { resident := b :: cs2.resident,
              spilledB := removeBid pid cs2.spilledB }

/-- Source load_input_batches(task): the no-spill set is the set of all
apply-predecessor batches, computed once before the loop. -/
def loadInputBatches (maxR : Nat) (bprio : CBatch → Nat) (spillDir : Bool)
    (predIds : List Nat) (cs : CacheState) : Option CacheState :=
  libGo maxR bprio spillDir predIds predIds cs

/-- From esGo_keeps_noSpill: ensure_space keeps every protected resident
batch resident. -/
theorem ensureSpace_keeps_noSpill (maxR needed : Nat) (noSpill : List Nat)
    (bprio : CBatch → Nat) (spillDir : Bool) (cs cs2 : CacheState) (w : Bool)
    (h : ensureSpace maxR needed noSpill bprio spillDir cs = some (cs2, w)) :
    ∀ x ∈ cs.resident, x.bid ∈ noSpill → x ∈ cs2.resident := by
  unfold ensureSpace at h
  cases hgo : esGo maxR needed noSpill spillDir
      ((sortByKey bprio cs.resident).reverse) [] [] with
  | none => rw [hgo] at h; simp at h
  | some out =>
    obtain ⟨res, sp, w'⟩ := out
    rw [hgo] at h
    simp only [Option.some.injEq, Prod.mk.injEq] at h
    obtain ⟨hcs, hw⟩ := h
    intro x hx hns
    have hmem : x ∈ (sortByKey bprio cs.resident).reverse := by
      rw [List.mem_reverse, mem_sortByKey]
      exact hx
    have := esGo_keeps_noSpill maxR needed noSpill spillDir _ [] [] res sp w'
      hgo x (Or.inl ⟨hmem, hns⟩)
    rw [← hcs]
    exact this

/-- The spilled set only grows across ensure_space. -/
theorem ensureSpace_spilled_superset (maxR needed : Nat) (noSpill : List Nat)
    (bprio : CBatch → Nat) (spillDir : Bool) (cs cs2 : CacheState) (w : Bool)
    (h : ensureSpace maxR needed noSpill bprio spillDir cs = some (cs2, w)) :
    ∀ x ∈ cs.spilledB, x ∈ cs2.spilledB := by
  unfold ensureSpace at h
  cases hgo : esGo maxR needed noSpill spillDir
      ((sortByKey bprio cs.resident).reverse) [] [] with
  | none => rw [hgo] at h; simp at h
  | some out =>
    obtain ⟨res, sp, w'⟩ := out
    rw [hgo] at h
    simp only [Option.some.injEq, Prod.mk.injEq] at h
    intro x hx
    rw [← h.1]
    exact List.mem_append.mpr (Or.inr hx)

/-- Batches with a different identity survive removeBid. -/
theorem mem_removeBid (pid : Nat) (x : CBatch) (hx : x.bid ≠ pid) :
    ∀ l, x ∈ l → x ∈ removeBid pid l := by
  intro l
  induction l with
  | nil => intro h; simp at h
  | cons b bs ih =>
    intro h
    unfold removeBid
    by_cases hb : b.bid = pid
    · simp only [if_pos hb]
      rcases List.mem_cons.mp h with hxb | hbs
      · exact absurd (hxb ▸ hb) hx
      · exact hbs
    · simp only [if_neg hb]
      rcases List.mem_cons.mp h with hxb | hbs
      · exact List.mem_cons.mpr (Or.inl hxb)
      · exact List.mem_cons.mpr (Or.inr (ih hbs))

/-! ## Claim C8 -/

/-- Claim C8: before a task's operation reads any predecessor batch,
load_input_batches reloads every spilled predecessor and establishes that
all predecessor batches are RESIDENT — the protected no-spill set prevents
the eviction triggered for one predecessor from re-spilling another — so
the residency assertion inside _Batch.Xy cannot fail on the reads that
follow (in the source every Xy read of an operation happens after its
load_input_batches call). -/
theorem load_input_batches_resident (maxR : Nat) (bprio : CBatch → Nat)
    (predIds : List Nat) (cs : CacheState)
    (hpresent : ∀ pid ∈ predIds,
      pid ∈ bidsOf cs.resident ∨ pid ∈ bidsOf cs.spilledB) :
    ∃ cs2, loadInputBatches maxR bprio true predIds cs = some cs2 ∧
      ∀ pid ∈ predIds, pid ∈ bidsOf cs2.resident := by
  unfold loadInputBatches
  suffices h : ∀ todo cs1, (∀ pid ∈ todo, pid ∈ predIds) →
      (∀ pid ∈ todo, pid ∈ bidsOf cs1.resident ∨ pid ∈ bidsOf cs1.spilledB) →
      (∀ pid ∈ predIds, pid ∉ todo → pid ∈ bidsOf cs1.resident) →
      ∃ cs2, libGo maxR bprio true predIds todo cs1 = some cs2 ∧
        ∀ pid ∈ predIds, pid ∈ bidsOf cs2.resident by
    apply h predIds cs (fun _ hp => hp) hpresent
    intro pid hp hnp
    exact absurd hp hnp
  intro todo
  induction todo with
  | nil =>
    intro cs1 _ _ hdone
    refine ⟨cs1, rfl, ?_⟩
    intro pid hp
    exact hdone pid hp (by simp)
  | cons pid rest ih =>
    intro cs1 hsub hpres hdone
    unfold libGo
    by_cases hres : pid ∈ bidsOf cs1.resident
    · simp only [if_pos hres]
      apply ih cs1 (fun q hq => hsub q (by simp [hq]))
        (fun q hq => hpres q (by simp [hq]))
      intro q hq hnq
      by_cases hqp : q = pid
      · exact hqp ▸ hres
      · exact hdone q hq (by simp [hqp, hnq])
    · simp only [if_neg hres]
      have hsp : pid ∈ bidsOf cs1.spilledB := by
        rcases hpres pid (by simp) with h | h
        · exact absurd h hres
        · exact h
      obtain ⟨b, hfind⟩ : ∃ b, cs1.spilledB.find? (fun b => b.bid == pid) = some b := by
        rcases List.mem_map.mp hsp with ⟨b, hb, hbid⟩
        have hex : ∃ x ∈ cs1.spilledB, (fun b => b.bid == pid) x = true :=
          ⟨b, hb, by simp [hbid]⟩
        rcases Option.isSome_iff_exists.mp (List.find?_isSome.mpr hex) with ⟨x, hx⟩
        exact ⟨x, hx⟩
      obtain ⟨cs2, w, hes, _, _⟩ :=
        ensure_space_soft maxR b.space predIds bprio cs1
      simp only [hfind, hes]
      have hbid : b.bid = pid := by
        have := List.find?_some hfind
        simpa using this
      have hkeep := ensureSpace_keeps_noSpill maxR b.space predIds bprio true
        cs1 cs2 w hes
      have hsup := ensureSpace_spilled_superset maxR b.space predIds bprio true
        cs1 cs2 w hes
      apply ih (CacheState.mk (b :: cs2.resident) (removeBid pid cs2.spilledB))
        (fun q hq => hsub q (by simp [hq]))
      · intro q hq
        by_cases hqp : q = pid
        · subst hqp
          left
          simp [bidsOf, hbid]
        · rcases hpres q (by simp [hq]) with hq1 | hq1
          · left
            rcases List.mem_map.mp hq1 with ⟨x, hxmem, hxbid⟩
            have : x ∈ cs2.resident :=
              hkeep x hxmem (by rw [hxbid]; exact hsub q (by simp [hq]))
            exact List.mem_map.mpr ⟨x, by simp [this], hxbid⟩
          · right
            rcases List.mem_map.mp hq1 with ⟨x, hxmem, hxbid⟩
            have hx2 : x ∈ cs2.spilledB := hsup x hxmem
            have hxne : x.bid ≠ pid := by rw [hxbid]; exact hqp
            exact List.mem_map.mpr ⟨x, mem_removeBid pid x hxne _ hx2, hxbid⟩
      · intro q hq hnq
        by_cases hqp : q = pid
        · subst hqp
          simp [bidsOf, hbid]
        · have hq1 : q ∈ bidsOf cs1.resident :=
            hdone q hq (by simp [hqp, hnq])
          rcases List.mem_map.mp hq1 with ⟨x, hxmem, hxbid⟩
          have : x ∈ cs2.resident := hkeep x hxmem (by rw [hxbid]; exact hq)
          exact List.mem_map.mpr ⟨x, by simp [this], hxbid⟩

/-- A concrete cache used by the load_input_batches witness: batch 1
resident with space 3, batch 2 spilled with space 4. -/
def witnessCache : CacheState :=
  CacheState.mk [CBatch.mk 1 3] [CBatch.mk 2 4]

/-- Claim C8, witness: two predecessor batches, one resident and one
spilled, ceiling 8: the call returns with both predecessors resident. -/
theorem load_input_batches_resident_witness :
    (∀ pid ∈ [1, 2],
      pid ∈ bidsOf witnessCache.resident ∨ pid ∈ bidsOf witnessCache.spilledB) ∧
    ∃ cs2, loadInputBatches 8 (fun b => b.bid) true [1, 2] witnessCache
        = some cs2 ∧
      ∀ pid ∈ [1, 2], pid ∈ bidsOf cs2.resident :=
  ⟨by decide,
    load_input_batches_resident 8 (fun b => b.bid) [1, 2] witnessCache
      (by decide)⟩

/-! ## Tasks, memo keys and the executor state

Source lines 60-124 and 896-971.  A task is identified by its memo key
(type(self), step_id, batch_ids, held_out); the three task classes are
_TrainTask, _ApplyTask and _MetricTask.  step_id is an integer:
_DUMMY_INPUT_STEP = -1, real steps 0.., _DUMMY_SCORE_STEP = sys.maxsize
(2 ^ 63 - 1 on 64-bit CPython).  _TaskStatus enumerates FRESH READY
WAITING DONE with Python enum values 1 2 3 4.  The executor state is the
tasks dictionary mapping memo keys to task objects; each task carries its
status, predecessor and successor key lists (fixed once the graph is
built), a deletable_output flag, the train/metric monoid slot and, for
apply tasks, the produced batch (modelled by its space and residency, the
two facts the priority policies read).  The ready_keys set of the source
is kept exactly in sync with the READY status and is therefore derived,
not stored. -/

/-- A batch id string. -/
abbrev BId := List Nat

/-- The three task classes. -/
inductive TKind where
  | train
  | apply
  | metric
deriving DecidableEq, Repr

/-- step_id of the synthetic input step. -/
def inputStep : Int := -1

/-- step_id of the synthetic scoring sink (sys.maxsize). -/
def scoreStep : Int := 2 ^ 63 - 1

/-- Memo key (type(self), step_id, batch_ids, held_out). -/
structure TKey where
  kind : TKind
  stepId : Int
  batchIds : List BId
  heldOut : Option Nat
deriving DecidableEq, Repr

/-- Task lifecycle status. -/
inductive TStatus where
  | fresh
  | ready
  | waiting
  | done
deriving DecidableEq, Repr

/-- Python enum values of _TaskStatus (FRESH=1, READY=2, WAITING=3,
DONE=4), the leading component of every priority tuple. -/
def statusVal : TStatus → Int
  | TStatus.fresh => 1
  | TStatus.ready => 2
  | TStatus.waiting => 3
  | TStatus.done => 4

/-- Mutable per-task state: status, output slots, deletable flag, and the
static predecessor/successor key lists. -/
structure TNode (M : Type) where
  status : TStatus
  monoid : Option M
  batch : Option (Nat × Bool)
  deletable : Bool
  preds : List TKey
  succs : List TKey
deriving DecidableEq, Repr

/-- The tasks dictionary of one run. -/
structure GState (M : Type) where
  tasks : List (TKey × TNode M)
deriving DecidableEq, Repr

/-- Dictionary lookup by memo key. -/
def lookupTask {M : Type} (g : GState M) (k : TKey) : Option (TNode M) :=
  (g.tasks.find? (fun p => decide (p.1 = k))).map (fun p => p.2)

/-- Status of a task; a key outside the dictionary reads as DONE (mark_done
receives task objects, so this case never arises in the source). -/
def statusOf {M : Type} (g : GState M) (k : TKey) : TStatus :=
  match lookupTask g k with
  | some n => n.status
  | none => TStatus.done

/-- Monoid slot of a task. -/
def monoidOf {M : Type} (g : GState M) (k : TKey) : Option M :=
  match lookupTask g k with
  | some n => n.monoid
  | none => none

/-- Static predecessor keys of a task. -/
def predsOf {M : Type} (g : GState M) (k : TKey) : List TKey :=
  match lookupTask g k with
  | some n => n.preds
  | none => []

/-- Static successor keys of a task. -/
def succsOf {M : Type} (g : GState M) (k : TKey) : List TKey :=
  match lookupTask g k with
  | some n => n.succs
  | none => []

/-- Point update of the node stored under a key. -/
def setNode {M : Type} (g : GState M) (k : TKey) (f : TNode M → TNode M) :
    GState M :=
  GState.mk (g.tasks.map (fun p => if p.1 = k then (p.1, f p.2) else p))

/-! ## Priority policies (source lines 290-360)

Each policy's task_priority returns a Python tuple compared element-wise;
the elements are integers and the tuple of batch-id strings.  PElem models
one element, ptupleLt the tuple comparison, bidsLt the comparison of two
batch-id tuples (element-wise Python string comparison). -/

/-- Comparison of two batch-id tuples (tuples of Python strings). -/
def bidsLt : List BId → List BId → Bool
  | _, [] => false
  | [], _ :: _ => true
  | a :: as, b :: bs => strLt a b || (decide (a = b) && bidsLt as bs)

/-- One element of a priority tuple. -/
inductive PElem where
  | num (v : Int)
  | ids (v : List BId)
deriving DecidableEq, Repr

/-- Element comparison (elements at the same position always have the same
shape for a fixed policy). -/
def pelemLt : PElem → PElem → Bool
  | PElem.num a, PElem.num b => decide (a < b)
  | PElem.ids a, PElem.ids b => bidsLt a b
  | _, _ => false

/-- Python tuple comparison, element-wise lexicographic. -/
def ptupleLt : List PElem → List PElem → Bool
  | _, [] => false
  | [], _ :: _ => true
  | a :: as, b :: bs => pelemLt a b || (decide (a = b) && ptupleLt as bs)

/-- The train-before-apply tiebreak: 0 if isinstance(task, _TrainTask)
else 1. -/
def trainFlag : TKind → Int
  | TKind.train => 0
  | TKind.apply => 1
  | TKind.metric => 1

/-- PrioStep.task_priority:
(status.value, step_id, len(batch_ids), batch_ids, train-flag). -/
def prioStep (st : TStatus) (k : TKey) : List PElem :=
  [PElem.num (statusVal st), PElem.num k.stepId,
    PElem.num k.batchIds.length, PElem.ids k.batchIds,
    PElem.num (trainFlag k.kind)]

/-- PrioBatch.task_priority:
(status.value, len(batch_ids), batch_ids, step_id, train-flag). -/
def prioBatch (st : TStatus) (k : TKey) : List PElem :=
  [PElem.num (statusVal st), PElem.num k.batchIds.length,
    PElem.ids k.batchIds, PElem.num k.stepId,
    PElem.num (trainFlag k.kind)]

/-- PrioResourceAware.task_priority:
(status.value, non-resident predecessor space, batch_ids, step_id,
train-flag). -/
def prioResource (nonRes : Nat) (st : TStatus) (k : TKey) : List PElem :=
  [PElem.num (statusVal st), PElem.num nonRes,
    PElem.ids k.batchIds, PElem.num k.stepId,
    PElem.num (trainFlag k.kind)]

/-- The non-resident predecessor space summed by PrioResourceAware:
sum of p.batch.space over apply predecessors whose batch exists and is not
RESIDENT. -/
def nonResOf {M : Type} (g : GState M) (k : TKey) : Nat :=
  ((predsOf g k).map (fun p =>
    if p.kind = TKind.apply then
      match lookupTask g p with
      | some n =>
        match n.batch with
        | some (space, resident) => if resident then 0 else space
        | none => 0
      | none => 0
    else 0)).sum

/-- PrioResourceAware.task_priority as the source computes it, reading the
predecessor batches from the run state. -/
def prioResourceOf {M : Type} (g : GState M) (st : TStatus) (k : TKey) :
    List PElem :=
  prioResource (nonResOf g k) st k

/-! ## Claim C6 -/

/-- The key of the train task over batch d0 held out against fold e
(cross-validation with same_fold=True builds such per-fold tasks). -/
def cexKeyE : TKey :=
  TKey.mk TKind.train 0 [batchId 100 0] (some 101)

/-- The key of the train task over batch d0 held out against fold f. -/
def cexKeyF : TKey :=
  TKey.mk TKind.train 0 [batchId 100 0] (some 102)

/-- A run state holding the two colliding tasks, both WAITING on the same
input-scan predecessor, as built by _create_tasks_cross_val with 3 folds,
same_fold=True and an associative first step. -/
def cexGraph : GState Nat :=
  GState.mk
    [(cexKeyE,
      TNode.mk TStatus.waiting none none true
        [TKey.mk TKind.apply inputStep [batchId 100 0] none]
        []),
     (cexKeyF,
      TNode.mk TStatus.waiting none none true
        [TKey.mk TKind.apply inputStep [batchId 100 0] none]
        []),
     (TKey.mk TKind.apply inputStep [batchId 100 0] none,
      TNode.mk TStatus.ready none none true [] [cexKeyE, cexKeyF])]

/-- Claim C6, counterexample.  Two distinct tasks of one graph — the train
tasks for step 0 over batch d0 with held-out folds e and f — receive
identical priority tuples under all three policies, because no policy's
tuple contains the held-out fold; so task_priority is not injective on the
tasks of a graph. -/
theorem task_priority_collision_cex :
    cexKeyE ≠ cexKeyF ∧
      prioStep TStatus.waiting cexKeyE = prioStep TStatus.waiting cexKeyF ∧
      prioBatch TStatus.waiting cexKeyE = prioBatch TStatus.waiting cexKeyF ∧
      prioResourceOf cexGraph TStatus.waiting cexKeyE
        = prioResourceOf cexGraph TStatus.waiting cexKeyF := by
  refine ⟨by decide, by decide, by decide, by decide⟩

/-- Claim C6, amended: each policy's tuple does order READY strictly before
WAITING through the leading status component, and equal tuples force equal
status value, step id, batch ids and train-flag — but not equal held-out
fold, so the order is total yet not injective on distinct tasks that differ
only in the held-out fold (see the counterexample). -/
theorem task_priority_amended (st1 st2 : TStatus) (k1 k2 : TKey)
    (n1 n2 : Nat) :
    ((prioStep st1 k1 = prioStep st2 k2 →
        statusVal st1 = statusVal st2 ∧ k1.stepId = k2.stepId ∧
          k1.batchIds = k2.batchIds ∧ trainFlag k1.kind = trainFlag k2.kind) ∧
      (prioBatch st1 k1 = prioBatch st2 k2 →
        statusVal st1 = statusVal st2 ∧ k1.stepId = k2.stepId ∧
          k1.batchIds = k2.batchIds ∧ trainFlag k1.kind = trainFlag k2.kind) ∧
      (prioResource n1 st1 k1 = prioResource n2 st2 k2 →
        statusVal st1 = statusVal st2 ∧ n1 = n2 ∧ k1.stepId = k2.stepId ∧
          k1.batchIds = k2.batchIds ∧ trainFlag k1.kind = trainFlag k2.kind)) ∧
    (st1 = TStatus.ready → st2 = TStatus.waiting →
      ptupleLt (prioStep st1 k1) (prioStep st2 k2) = true ∧
      ptupleLt (prioBatch st1 k1) (prioBatch st2 k2) = true ∧
      ptupleLt (prioResource n1 st1 k1) (prioResource n2 st2 k2) = true) := by
  constructor
  · refine ⟨?_, ?_, ?_⟩
    · intro h
      simp only [prioStep, List.cons.injEq, PElem.num.injEq, PElem.ids.injEq,
        and_true] at h
      exact ⟨h.1, h.2.1, h.2.2.2.1, h.2.2.2.2⟩
    · intro h
      simp only [prioBatch, List.cons.injEq, PElem.num.injEq, PElem.ids.injEq,
        and_true] at h
      exact ⟨h.1, h.2.2.2.1, h.2.2.1, h.2.2.2.2⟩
    · intro h
      simp only [prioResource, List.cons.injEq, PElem.num.injEq, PElem.ids.injEq,
        and_true] at h
      exact ⟨h.1, by omega, h.2.2.2.1, h.2.2.1, h.2.2.2.2⟩
  · intro h1 h2
    subst h1; subst h2
    refine ⟨?_, ?_, ?_⟩ <;>
      simp [prioStep, prioBatch, prioResource, ptupleLt, pelemLt, statusVal]

/-- Claim C6, amended, witness: applies the theorem to two concrete tasks
with equal PrioStep tuples and to a concrete READY/WAITING pair. -/
theorem task_priority_amended_witness :
    (prioStep TStatus.waiting cexKeyE = prioStep TStatus.waiting cexKeyF ∧
      cexKeyE.stepId = cexKeyF.stepId ∧
      cexKeyE.batchIds = cexKeyF.batchIds) ∧
    ptupleLt (prioStep TStatus.ready cexKeyE)
      (prioStep TStatus.waiting cexKeyF) = true := by
  constructor
  · refine ⟨by decide, ?_, ?_⟩
    · exact (((task_priority_amended TStatus.waiting TStatus.waiting
        cexKeyE cexKeyF 0 0).1.1) (by decide)).2.1
    · exact (((task_priority_amended TStatus.waiting TStatus.waiting
        cexKeyE cexKeyF 0 0).1.1) (by decide)).2.2.1
  · exact ((task_priority_amended TStatus.ready TStatus.waiting
      cexKeyE cexKeyF 0 0).2 rfl rfl).1

/-! ## Operations and mark_done (source lines 117-148, 270-287, 926-970)

get_operation dispatches on the task class, the presence of train tasks
among predecessors/successors, associativity of the step and the batch
arity.  mark_done frees deletable outputs, marks the task DONE, promotes
unblocked successors to READY, garbage-collects predecessors whose
successors are all DONE, and finally — for a TO_MONOID train task holding
an absorbing monoid — assigns that monoid to every not-yet-DONE task with
the same (kind, step, held-out) identity and marks it DONE.  The mutual
recursion of mark_done terminates in the source because each call either
returns at the DONE check or moves one task to DONE; here it takes a fuel
argument, and the theorems hold for any fuel that is at least 2 (the
recursion depth the short-circuit needs under their hypotheses). -/

/-- The seven executor operations. -/
inductive Op where
  | scan
  | transform
  | predict
  | fit
  | partialFit
  | toMonoid
  | combine
deriving DecidableEq, Repr

/-- Source _Task.get_operation of the three task classes, given the
pipeline facts it consults: whether a step is associative and whether it
is a transformer. -/
def getOperation {M : Type} (assocStep : Int → Bool)
    (transformerStep : Int → Bool) (k : TKey) (n : TNode M) : Op :=
  match k.kind with
  | TKind.train =>
    let anyPredTrain := n.preds.any (fun p => p.kind = TKind.train)
    let anySuccTrain := n.succs.any (fun s => s.kind = TKind.train)
    if !anyPredTrain && !anySuccTrain then Op.fit
    else if assocStep k.stepId then
      if k.batchIds.length = 1 then Op.toMonoid else Op.combine
    else Op.partialFit
  | TKind.apply =>
    if k.stepId = inputStep then Op.scan
    else if transformerStep k.stepId then Op.transform else Op.predict
  | TKind.metric =>
    if k.batchIds.length = 1 then Op.toMonoid else Op.combine

/-- All successors DONE, the guard of try_to_delete_output and of the
predecessor garbage collection. -/
def allSuccsDone {M : Type} (g : GState M) (succs : List TKey) : Bool :=
  succs.all (fun s => statusOf g s = TStatus.done)

/-- Source try_to_delete_output: if the task's output is deletable and all
its successors are DONE, clear the output slots (batch for apply tasks,
monoid and trained for train tasks, mmonoid for metric tasks). -/
def tryDelete {M : Type} (g : GState M) (k : TKey) : GState M :=
  match lookupTask g k with
  | none => g
  | some n =>
    if n.deletable && allSuccsDone g n.succs then
      setNode g k (fun m => { m with monoid := none, batch := none })
    else g

/-- The successor-promotion loop of mark_done: each WAITING successor all
of whose predecessors are DONE becomes READY. -/
def promoteSuccs {M : Type} (g : GState M) (succs : List TKey) : GState M :=
  succs.foldl (fun g2 s =>
    if statusOf g2 s = TStatus.waiting
        && (predsOf g2 s).all (fun p => statusOf g2 p = TStatus.done) then
      setNode g2 s (fun m => { m with status := TStatus.ready })
    else g2) g

/-- Same (kind, step, held-out) identity modulo batch ids; source is_moot
inside mark_done. -/
def isMoot (k1 k2 : TKey) : Bool :=
  k1.kind = k2.kind && k1.stepId = k2.stepId && k1.heldOut = k2.heldOut

/-- Keys of the tasks dictionary in insertion order. -/
def keysOf {M : Type} (g : GState M) : List TKey :=
  g.tasks.map (fun p => p.1)

/-- Source mark_done.  The ready_keys set bookkeeping is omitted because
it mirrors the READY status exactly.  The recursion takes fuel; fuel 0
leaves the state unchanged. -/
def markDone {M : Type} (assocStep : Int → Bool) (transformerStep : Int → Bool)
    (isAbsorb : M → Bool) : Nat → GState M → TKey → GState M
  | 0, g, _ => g
  | fuel + 1, g, k =>
    let g1 := tryDelete g k
    if statusOf g1 k = TStatus.done then g1
    else
      let g2 := setNode g1 k (fun m => { m with status := TStatus.done })
      let g3 := promoteSuccs g2 (succsOf g2 k)
      let g4 := (predsOf g3 k).foldl (fun gp p =>
          if allSuccsDone gp (succsOf gp p) then
            markDone assocStep transformerStep isAbsorb fuel gp p
          else gp) g3
      match lookupTask g4 k with
      | none => g4
      | some n =>
        if k.kind = TKind.train
            && getOperation assocStep transformerStep k n = Op.toMonoid then
          match n.monoid with
          | some m =>
            if isAbsorb m then
              (keysOf g4).foldl (fun g5 k2 =>
                if statusOf g5 k2 ≠ TStatus.done && isMoot k k2 then
                  markDone assocStep transformerStep isAbsorb fuel
                    (setNode g5 k2 (fun mm => { mm with monoid := some m })) k2
                else g5) g4
            else g4
          | none => g4
        else g4

/-! State-manipulation lemmas. -/

theorem lookupTask_setNode {M : Type} (g : GState M) (k : TKey)
    (f : TNode M → TNode M) (k0 : TKey) :
    lookupTask (setNode g k f) k0
      = if k0 = k then (lookupTask g k0).map f else lookupTask g k0 := by
  obtain ⟨l⟩ := g
  unfold lookupTask setNode
  simp only
  induction l with
  | nil => by_cases h : k0 = k <;> simp [h]
  | cons p ps ih =>
    simp only [List.map_cons]
    by_cases hp0 : p.1 = k0
    · by_cases hpk : p.1 = k
      · have hk0k : k0 = k := by rw [← hp0, hpk]
        simp [List.find?_cons, hpk, hp0, hk0k]
      · have hk0k : ¬ k0 = k := fun h => hpk (hp0 ▸ h ▸ rfl)
        simp [List.find?_cons, hpk, hp0, hk0k]
    · by_cases hpk : p.1 = k
      · simp only [if_pos hpk]
        rw [List.find?_cons_of_neg _ (by simp [hp0]),
          List.find?_cons_of_neg _ (by simpa using hp0)]
        exact ih
      · simp only [if_neg hpk]
        rw [List.find?_cons_of_neg _ (by simpa using hp0),
          List.find?_cons_of_neg _ (by simpa using hp0)]
        exact ih

theorem statusOf_setNode_other {M : Type} (g : GState M) (k : TKey)
    (f : TNode M → TNode M) (k0 : TKey) (h : k0 ≠ k) :
    statusOf (setNode g k f) k0 = statusOf g k0 := by
  unfold statusOf
  rw [lookupTask_setNode, if_neg h]

theorem monoidOf_setNode_other {M : Type} (g : GState M) (k : TKey)
    (f : TNode M → TNode M) (k0 : TKey) (h : k0 ≠ k) :
    monoidOf (setNode g k f) k0 = monoidOf g k0 := by
  unfold monoidOf
  rw [lookupTask_setNode, if_neg h]

theorem statusOf_setNode_keepStatus {M : Type} (g : GState M) (k : TKey)
    (f : TNode M → TNode M) (hf : ∀ n, (f n).status = n.status) (k0 : TKey) :
    statusOf (setNode g k f) k0 = statusOf g k0 := by
  unfold statusOf
  rw [lookupTask_setNode]
  by_cases h : k0 = k
  · rw [if_pos h]
    cases lookupTask g k0 with
    | none => rfl
    | some n => simp [hf n]
  · rw [if_neg h]

theorem monoidOf_setNode_keepMonoid {M : Type} (g : GState M) (k : TKey)
    (f : TNode M → TNode M) (hf : ∀ n, (f n).monoid = n.monoid) (k0 : TKey) :
    monoidOf (setNode g k f) k0 = monoidOf g k0 := by
  unfold monoidOf
  rw [lookupTask_setNode]
  by_cases h : k0 = k
  · rw [if_pos h]
    cases lookupTask g k0 with
    | none => rfl
    | some n => simp [hf n]
  · rw [if_neg h]

theorem statusOf_setDone_self {M : Type} (g : GState M) (k : TKey) :
    statusOf (setNode g k (fun m => { m with status := TStatus.done })) k
      = TStatus.done := by
  unfold statusOf
  rw [lookupTask_setNode, if_pos rfl]
  cases lookupTask g k with
  | none => rfl
  | some n => rfl

theorem keysOf_setNode {M : Type} (g : GState M) (k : TKey)
    (f : TNode M → TNode M) : keysOf (setNode g k f) = keysOf g := by
  obtain ⟨l⟩ := g
  unfold keysOf setNode
  simp only [List.map_map]
  apply List.map_congr_left
  intro p _
  by_cases h : p.1 = k <;> simp [h]

theorem predsOf_setNode_keepEdges {M : Type} (g : GState M) (k : TKey)
    (f : TNode M → TNode M) (hf : ∀ n, (f n).preds = n.preds) (k0 : TKey) :
    predsOf (setNode g k f) k0 = predsOf g k0 := by
  unfold predsOf
  rw [lookupTask_setNode]
  by_cases h : k0 = k
  · rw [if_pos h]
    cases lookupTask g k0 with
    | none => rfl
    | some n => simp [hf n]
  · rw [if_neg h]

theorem succsOf_setNode_keepEdges {M : Type} (g : GState M) (k : TKey)
    (f : TNode M → TNode M) (hf : ∀ n, (f n).succs = n.succs) (k0 : TKey) :
    succsOf (setNode g k f) k0 = succsOf g k0 := by
  unfold succsOf
  rw [lookupTask_setNode]
  by_cases h : k0 = k
  · rw [if_pos h]
    cases lookupTask g k0 with
    | none => rfl
    | some n => simp [hf n]
  · rw [if_neg h]

/-- Generic foldl invariant preservation. -/
theorem foldl_pres {σ α : Type} (P : σ → Prop) (f : σ → α → σ)
    (h : ∀ s a, P s → P (f s a)) :
    ∀ (l : List α) (s : σ), P s → P (l.foldl f s) := by
  intro l
  induction l with
  | nil => intro s hs; exact hs
  | cons a as ih => intro s hs; exact ih (f s a) (h s a hs)

/-- Generic foldl goal establishment: if some list element establishes P
at its own turn (or P already holds there) and every step preserves P,
then the fold establishes P. -/
theorem foldl_establish {σ α : Type} (P : σ → Prop) (f : σ → α → σ)
    (b : α) (hb : ∀ s, P (f s b)) (hpres : ∀ s a, P s → P (f s a)) :
    ∀ (l : List α) (s : σ), b ∈ l → P (l.foldl f s) := by
  intro l
  induction l with
  | nil => intro s hmem; simp at hmem
  | cons a as ih =>
    intro s hmem
    rcases List.mem_cons.mp hmem with hab | has
    · subst hab
      exact foldl_pres P f hpres as (f s b) (hb s)
    · exact ih (f s a) has

/-- Variant of foldl_pres where the step hypothesis may use membership of
the element in the list. -/
theorem foldl_pres_mem {σ α : Type} (P : σ → Prop) (f : σ → α → σ) :
    ∀ (l : List α), (∀ s a, a ∈ l → P s → P (f s a)) →
      ∀ (s : σ), P s → P (l.foldl f s) := by
  intro l
  induction l with
  | nil => intro _ s hs; exact hs
  | cons a as ih =>
    intro h s hs
    exact ih (fun s' a' ha' hs' => h s' a' (by simp [ha']) hs') (f s a)
      (h s a (by simp) hs)

theorem statusOf_tryDelete {M : Type} (g : GState M) (k k0 : TKey) :
    statusOf (tryDelete g k) k0 = statusOf g k0 := by
  unfold tryDelete
  cases lookupTask g k with
  | none => rfl
  | some n =>
    simp only
    by_cases hc : n.deletable && allSuccsDone g n.succs
    · rw [if_pos hc]
      exact statusOf_setNode_keepStatus g k
        (fun m => { m with monoid := none, batch := none }) (fun _ => rfl) k0
    · rw [if_neg hc]

theorem monoidOf_tryDelete_cases {M : Type} (g : GState M) (k k0 : TKey) :
    monoidOf (tryDelete g k) k0 = monoidOf g k0 ∨
      (k0 = k ∧ monoidOf (tryDelete g k) k0 = none) := by
  unfold tryDelete
  cases lookupTask g k with
  | none => exact Or.inl rfl
  | some n =>
    simp only
    by_cases hc : n.deletable && allSuccsDone g n.succs
    · rw [if_pos hc]
      by_cases hk : k0 = k
      · refine Or.inr ⟨hk, ?_⟩
        subst hk
        unfold monoidOf
        rw [lookupTask_setNode, if_pos rfl]
        cases lookupTask g k0 with
        | none => rfl
        | some n0 => rfl
      · exact Or.inl (monoidOf_setNode_other g k _ k0 hk)
    · rw [if_neg hc]; exact Or.inl rfl

theorem predsOf_tryDelete {M : Type} (g : GState M) (k k0 : TKey) :
    predsOf (tryDelete g k) k0 = predsOf g k0 := by
  unfold tryDelete
  cases lookupTask g k with
  | none => rfl
  | some n =>
    simp only
    by_cases hc : n.deletable && allSuccsDone g n.succs
    · rw [if_pos hc]
      exact predsOf_setNode_keepEdges g k
        (fun m => { m with monoid := none, batch := none }) (fun _ => rfl) k0
    · rw [if_neg hc]

theorem succsOf_tryDelete {M : Type} (g : GState M) (k k0 : TKey) :
    succsOf (tryDelete g k) k0 = succsOf g k0 := by
  unfold tryDelete
  cases lookupTask g k with
  | none => rfl
  | some n =>
    simp only
    by_cases hc : n.deletable && allSuccsDone g n.succs
    · rw [if_pos hc]
      exact succsOf_setNode_keepEdges g k
        (fun m => { m with monoid := none, batch := none }) (fun _ => rfl) k0
    · rw [if_neg hc]

theorem keysOf_tryDelete {M : Type} (g : GState M) (k : TKey) :
    keysOf (tryDelete g k) = keysOf g := by
  unfold tryDelete
  cases lookupTask g k with
  | none => rfl
  | some n =>
    simp only
    by_cases hc : n.deletable && allSuccsDone g n.succs
    · rw [if_pos hc]; exact keysOf_setNode g k _
    · rw [if_neg hc]

theorem statusOf_promoteSuccs_done {M : Type} (g : GState M)
    (succs : List TKey) (k0 : TKey) (h : statusOf g k0 = TStatus.done) :
    statusOf (promoteSuccs g succs) k0 = TStatus.done := by
  unfold promoteSuccs
  apply foldl_pres (fun g' => statusOf g' k0 = TStatus.done)
  · intro g' s hs
    by_cases hc : statusOf g' s = TStatus.waiting
        && (predsOf g' s).all (fun p => statusOf g' p = TStatus.done)
    · rw [if_pos hc]
      by_cases hks : k0 = s
      · subst hks
        simp only [Bool.and_eq_true, decide_eq_true_eq] at hc
        rw [hs] at hc
        exact absurd hc.1 (by simp)
      · rw [statusOf_setNode_other g' s _ k0 hks]; exact hs
    · rw [if_neg hc]; exact hs
  · exact h

theorem monoidOf_promoteSuccs {M : Type} (g : GState M) (succs : List TKey)
    (k0 : TKey) : monoidOf (promoteSuccs g succs) k0 = monoidOf g k0 := by
  unfold promoteSuccs
  apply foldl_pres (fun g' => monoidOf g' k0 = monoidOf g k0)
  · intro g' s hs
    by_cases hc : statusOf g' s = TStatus.waiting
        && (predsOf g' s).all (fun p => statusOf g' p = TStatus.done)
    · rw [if_pos hc, monoidOf_setNode_keepMonoid g' s
        (fun m => { m with status := TStatus.ready }) (fun _ => rfl) k0]
      exact hs
    · rw [if_neg hc]; exact hs
  · rfl

theorem predsOf_promoteSuccs {M : Type} (g : GState M) (succs : List TKey)
    (k0 : TKey) : predsOf (promoteSuccs g succs) k0 = predsOf g k0 := by
  unfold promoteSuccs
  apply foldl_pres (fun g' => predsOf g' k0 = predsOf g k0)
  · intro g' s hs
    by_cases hc : statusOf g' s = TStatus.waiting
        && (predsOf g' s).all (fun p => statusOf g' p = TStatus.done)
    · rw [if_pos hc, predsOf_setNode_keepEdges g' s
        (fun m => { m with status := TStatus.ready }) (fun _ => rfl) k0]
      exact hs
    · rw [if_neg hc]; exact hs
  · rfl

theorem succsOf_promoteSuccs {M : Type} (g : GState M) (succs : List TKey)
    (k0 : TKey) : succsOf (promoteSuccs g succs) k0 = succsOf g k0 := by
  unfold promoteSuccs
  apply foldl_pres (fun g' => succsOf g' k0 = succsOf g k0)
  · intro g' s hs
    by_cases hc : statusOf g' s = TStatus.waiting
        && (predsOf g' s).all (fun p => statusOf g' p = TStatus.done)
    · rw [if_pos hc, succsOf_setNode_keepEdges g' s
        (fun m => { m with status := TStatus.ready }) (fun _ => rfl) k0]
      exact hs
    · rw [if_neg hc]; exact hs
  · rfl

theorem keysOf_promoteSuccs {M : Type} (g : GState M) (succs : List TKey) :
    keysOf (promoteSuccs g succs) = keysOf g := by
  unfold promoteSuccs
  apply foldl_pres (fun g' => keysOf g' = keysOf g)
  · intro g' s hs
    by_cases hc : statusOf g' s = TStatus.waiting
        && (predsOf g' s).all (fun p => statusOf g' p = TStatus.done)
    · rw [if_pos hc, keysOf_setNode]; exact hs
    · rw [if_neg hc]; exact hs
  · rfl

theorem statusOf_setDone {M : Type} (g : GState M) (k k0 : TKey)
    (h : statusOf g k0 = TStatus.done) :
    statusOf (setNode g k (fun m => { m with status := TStatus.done })) k0
      = TStatus.done := by
  by_cases hk : k0 = k
  · subst hk; exact statusOf_setDone_self g k0
  · rw [statusOf_setNode_other g k _ k0 hk]; exact h

/-- mark_done never moves a DONE task out of DONE. -/
theorem markDone_preserves_done {M : Type} (assocStep transformerStep : Int → Bool)
    (isAbsorb : M → Bool) :
    ∀ (fuel : Nat) (g : GState M) (k k0 : TKey),
      statusOf g k0 = TStatus.done →
      statusOf (markDone assocStep transformerStep isAbsorb fuel g k) k0
        = TStatus.done := by
  intro fuel
  induction fuel with
  | zero => intro g k k0 h; exact h
  | succ fuel ih =>
    intro g k k0 h
    unfold markDone
    have h1 : statusOf (tryDelete g k) k0 = TStatus.done := by
      rw [statusOf_tryDelete]; exact h
    by_cases hdone : statusOf (tryDelete g k) k = TStatus.done
    · rw [if_pos hdone]; exact h1
    · rw [if_neg hdone]
      simp only
      set g1 := tryDelete g k with hg1
      set g2 := setNode g1 k (fun m => { m with status := TStatus.done }) with hg2
      set g3 := promoteSuccs g2 (succsOf g2 k) with hg3
      set g4 := (predsOf g3 k).foldl
        (fun gp p => if allSuccsDone gp (succsOf gp p) then
          markDone assocStep transformerStep isAbsorb fuel gp p else gp) g3
        with hg4
      have h2 : statusOf g2 k0 = TStatus.done := statusOf_setDone g1 k k0 h1
      have h3 : statusOf g3 k0 = TStatus.done :=
        statusOf_promoteSuccs_done g2 (succsOf g2 k) k0 h2
      have h4 : statusOf g4 k0 = TStatus.done := by
        rw [hg4]
        apply foldl_pres (fun g' => statusOf g' k0 = TStatus.done)
        · intro g' p hp
          by_cases hc : allSuccsDone g' (succsOf g' p)
          · rw [if_pos hc]; exact ih g' p k0 hp
          · rw [if_neg hc]; exact hp
        · exact h3
      cases hlk : lookupTask g4 k with
      | none => exact h4
      | some n =>
        simp only
        by_cases hbr : k.kind = TKind.train
            && getOperation assocStep transformerStep k n = Op.toMonoid
        · rw [if_pos hbr]
          cases hm : n.monoid with
          | none => exact h4
          | some m =>
            simp only
            by_cases habs : isAbsorb m
            · rw [if_pos habs]
              apply foldl_pres (fun g' => statusOf g' k0 = TStatus.done)
              · intro g' k2 hp
                by_cases hc : statusOf g' k2 ≠ TStatus.done && isMoot k k2
                · rw [if_pos hc]
                  apply ih
                  rw [statusOf_setNode_keepStatus g' k2
                    (fun mm => { mm with monoid := some m }) (fun _ => rfl) k0]
                  exact hp
                · rw [if_neg hc]; exact hp
              · exact h4
            · rw [if_neg habs]; exact h4
        · rw [if_neg hbr]; exact h4

/-- With at least one unit of fuel, mark_done leaves its argument DONE. -/
theorem markDone_marks {M : Type} (assocStep transformerStep : Int → Bool)
    (isAbsorb : M → Bool) (fuel : Nat) (g : GState M) (k : TKey) :
    statusOf (markDone assocStep transformerStep isAbsorb (fuel + 1) g k) k
      = TStatus.done := by
  unfold markDone
  by_cases hdone : statusOf (tryDelete g k) k = TStatus.done
  · rw [if_pos hdone]; exact hdone
  · rw [if_neg hdone]
    simp only
    set g1 := tryDelete g k with hg1
    set g2 := setNode g1 k (fun m => { m with status := TStatus.done }) with hg2
    set g3 := promoteSuccs g2 (succsOf g2 k) with hg3
    set g4 := (predsOf g3 k).foldl
      (fun gp p => if allSuccsDone gp (succsOf gp p) then
        markDone assocStep transformerStep isAbsorb fuel gp p else gp) g3
      with hg4
    have h2 : statusOf g2 k = TStatus.done := statusOf_setDone_self g1 k
    have h3 : statusOf g3 k = TStatus.done :=
      statusOf_promoteSuccs_done g2 (succsOf g2 k) k h2
    have h4 : statusOf g4 k = TStatus.done := by
      rw [hg4]
      apply foldl_pres (fun g' => statusOf g' k = TStatus.done)
      · intro g' p hp
        by_cases hc : allSuccsDone g' (succsOf g' p)
        · rw [if_pos hc]
          exact markDone_preserves_done assocStep transformerStep isAbsorb
            fuel g' p k hp
        · rw [if_neg hc]; exact hp
      · exact h3
    cases hlk : lookupTask g4 k with
    | none => exact h4
    | some n =>
      simp only
      by_cases hbr : k.kind = TKind.train
          && getOperation assocStep transformerStep k n = Op.toMonoid
      · rw [if_pos hbr]
        cases hm : n.monoid with
        | none => exact h4
        | some m =>
          simp only
          by_cases habs : isAbsorb m
          · rw [if_pos habs]
            apply foldl_pres (fun g' => statusOf g' k = TStatus.done)
            · intro g' k2 hp
              by_cases hc : statusOf g' k2 ≠ TStatus.done && isMoot k k2
              · rw [if_pos hc]
                apply markDone_preserves_done
                rw [statusOf_setNode_keepStatus g' k2
                  (fun mm => { mm with monoid := some m }) (fun _ => rfl) k]
                exact hp
              · rw [if_neg hc]; exact hp
            · exact h4
          · rw [if_neg habs]; exact h4
      · rw [if_neg hbr]; exact h4

/-- mark_done on an already-DONE task reduces to try_to_delete_output. -/
theorem markDone_on_done {M : Type} (assocStep transformerStep : Int → Bool)
    (isAbsorb : M → Bool) (fuel : Nat) (g : GState M) (k : TKey)
    (h : statusOf g k = TStatus.done) :
    markDone assocStep transformerStep isAbsorb fuel g k = g ∨
      markDone assocStep transformerStep isAbsorb fuel g k = tryDelete g k := by
  cases fuel with
  | zero => exact Or.inl rfl
  | succ fuel =>
    right
    unfold markDone
    rw [if_pos (by rw [statusOf_tryDelete]; exact h)]

theorem mem_keysOf_of_lookup {M : Type} (g : GState M) (k : TKey)
    (n : TNode M) (h : lookupTask g k = some n) : k ∈ keysOf g := by
  unfold lookupTask at h
  cases hf : g.tasks.find? (fun p => decide (p.1 = k)) with
  | none => rw [hf] at h; simp at h
  | some p =>
    have hp := List.find?_some hf
    have hmem := List.mem_of_find?_eq_some hf
    simp only [decide_eq_true_eq] at hp
    unfold keysOf
    exact List.mem_map.mpr ⟨p, hmem, hp⟩

theorem lookup_some_of_mem_keys {M : Type} (g : GState M) (k : TKey)
    (h : k ∈ keysOf g) : ∃ n, lookupTask g k = some n := by
  obtain ⟨l⟩ := g
  unfold keysOf at h
  unfold lookupTask
  simp only at h ⊢
  induction l with
  | nil => simp at h
  | cons p ps ih =>
    by_cases hp : p.1 = k
    · refine ⟨p.2, ?_⟩
      rw [List.find?_cons_of_pos _ (by simp [hp])]
      rfl
    · have h2 : k ∈ ps.map (fun q => q.1) := by
        rcases List.mem_map.mp h with ⟨q, hq, hqk⟩
        rcases List.mem_cons.mp hq with hqp | hqs
        · exact absurd (hqp ▸ hqk) hp
        · exact List.mem_map.mpr ⟨q, hqs, hqk⟩
      rcases ih h2 with ⟨n, hn⟩
      exact ⟨n, by rw [List.find?_cons_of_neg _ (by simp [hp])]; exact hn⟩

theorem statusOf_ne_done_lookup {M : Type} (g : GState M) (k : TKey)
    (h : statusOf g k ≠ TStatus.done) : ∃ n, lookupTask g k = some n := by
  unfold statusOf at h
  cases hl : lookupTask g k with
  | none => rw [hl] at h; exact absurd rfl h
  | some n => exact ⟨n, rfl⟩

theorem getOperation_congr {M : Type} (assocStep transformerStep : Int → Bool)
    (k : TKey) (n n' : TNode M) (hp : n.preds = n'.preds)
    (hs : n.succs = n'.succs) :
    getOperation assocStep transformerStep k n
      = getOperation assocStep transformerStep k n' := by
  unfold getOperation
  rw [hp, hs]

theorem monoidOf_setMonoid_cases {M : Type} (g : GState M) (k k0 : TKey)
    (v : M) :
    monoidOf (setNode g k (fun mm => { mm with monoid := some v })) k0
        = monoidOf g k0 ∨
      monoidOf (setNode g k (fun mm => { mm with monoid := some v })) k0
        = some v ∨
      monoidOf (setNode g k (fun mm => { mm with monoid := some v })) k0
        = none := by
  by_cases hk : k0 = k
  · subst hk
    unfold monoidOf
    rw [lookupTask_setNode, if_pos rfl]
    cases lookupTask g k0 with
    | none => exact Or.inr (Or.inr rfl)
    | some n => exact Or.inr (Or.inl rfl)
  · exact Or.inl (monoidOf_setNode_other g k _ k0 hk)

/-- keysOf is invariant under mark_done. -/
theorem keysOf_markDone {M : Type} (assocStep transformerStep : Int → Bool)
    (isAbsorb : M → Bool) :
    ∀ (fuel : Nat) (g : GState M) (k : TKey),
      keysOf (markDone assocStep transformerStep isAbsorb fuel g k)
        = keysOf g := by
  intro fuel
  induction fuel with
  | zero => intro g k; rfl
  | succ fuel ih =>
    intro g k
    unfold markDone
    by_cases hdone : statusOf (tryDelete g k) k = TStatus.done
    · rw [if_pos hdone]; exact keysOf_tryDelete g k
    · rw [if_neg hdone]
      simp only
      set g1 := tryDelete g k with hg1
      set g2 := setNode g1 k (fun m => { m with status := TStatus.done }) with hg2
      set g3 := promoteSuccs g2 (succsOf g2 k) with hg3
      set g4 := (predsOf g3 k).foldl
        (fun gp p => if allSuccsDone gp (succsOf gp p) then
          markDone assocStep transformerStep isAbsorb fuel gp p else gp) g3
        with hg4
      have h1 : keysOf g1 = keysOf g := keysOf_tryDelete g k
      have h2 : keysOf g2 = keysOf g := by rw [hg2, keysOf_setNode, h1]
      have h3 : keysOf g3 = keysOf g := by rw [hg3, keysOf_promoteSuccs, h2]
      have h4 : keysOf g4 = keysOf g := by
        rw [hg4]
        apply foldl_pres (fun g' => keysOf g' = keysOf g)
        · intro g' p hp
          by_cases hc : allSuccsDone g' (succsOf g' p)
          · rw [if_pos hc, ih g' p]; exact hp
          · rw [if_neg hc]; exact hp
        · exact h3
      cases hlk : lookupTask g4 k with
      | none => exact h4
      | some n =>
        simp only
        by_cases hbr : k.kind = TKind.train
            && getOperation assocStep transformerStep k n = Op.toMonoid
        · rw [if_pos hbr]
          cases hm : n.monoid with
          | none => exact h4
          | some m =>
            simp only
            by_cases habs : isAbsorb m
            · rw [if_pos habs]
              apply foldl_pres (fun g' => keysOf g' = keysOf g)
              · intro g' k2 hp
                by_cases hc : statusOf g' k2 ≠ TStatus.done && isMoot k k2
                · rw [if_pos hc, ih, keysOf_setNode]; exact hp
                · rw [if_neg hc]; exact hp
              · exact h4
            · rw [if_neg habs]; exact h4
        · rw [if_neg hbr]; exact h4

/-- The invariant of the absorbing short circuit, relative to the state g0
at the moment the executor calls mark_done on the freshly absorbing task
and to its monoid m: tasks DONE in g0 stay DONE, and a task not yet DONE
in g0 holds either no monoid or the absorbing monoid m. -/
def Jinv {M : Type} (g0 : GState M) (m : M) (g : GState M) : Prop :=
  (∀ k0, statusOf g0 k0 = TStatus.done → statusOf g k0 = TStatus.done) ∧
  (∀ k0, statusOf g0 k0 ≠ TStatus.done →
    monoidOf g k0 = none ∨ monoidOf g k0 = some m)

theorem tryDelete_J {M : Type} (g0 : GState M) (m : M) (g : GState M)
    (k : TKey) (h : Jinv g0 m g) : Jinv g0 m (tryDelete g k) := by
  constructor
  · intro k0 h0
    rw [statusOf_tryDelete]
    exact h.1 k0 h0
  · intro k0 h0
    rcases monoidOf_tryDelete_cases g k k0 with hc | ⟨_, hc⟩
    · rw [hc]; exact h.2 k0 h0
    · exact Or.inl hc

theorem setDone_J {M : Type} (g0 : GState M) (m : M) (g : GState M)
    (k : TKey) (h : Jinv g0 m g) :
    Jinv g0 m (setNode g k (fun n => { n with status := TStatus.done })) := by
  constructor
  · intro k0 h0
    exact statusOf_setDone g k k0 (h.1 k0 h0)
  · intro k0 h0
    rw [monoidOf_setNode_keepMonoid g k
      (fun n => { n with status := TStatus.done }) (fun _ => rfl) k0]
    exact h.2 k0 h0

theorem promote_J {M : Type} (g0 : GState M) (m : M) (g : GState M)
    (succs : List TKey) (h : Jinv g0 m g) :
    Jinv g0 m (promoteSuccs g succs) := by
  constructor
  · intro k0 h0
    exact statusOf_promoteSuccs_done g succs k0 (h.1 k0 h0)
  · intro k0 h0
    rw [monoidOf_promoteSuccs]
    exact h.2 k0 h0

theorem setMonoidM_J {M : Type} (g0 : GState M) (m : M) (g : GState M)
    (k : TKey) (h : Jinv g0 m g) :
    Jinv g0 m (setNode g k (fun mm => { mm with monoid := some m })) := by
  constructor
  · intro k0 h0
    rw [statusOf_setNode_keepStatus g k
      (fun mm => { mm with monoid := some m }) (fun _ => rfl) k0]
    exact h.1 k0 h0
  · intro k0 h0
    rcases monoidOf_setMonoid_cases g k k0 m with hc | hc | hc
    · rw [hc]; exact h.2 k0 h0
    · exact Or.inr hc
    · exact Or.inl hc

/-- mark_done preserves the short-circuit invariant: once the only monoid
held by not-yet-DONE tasks is the absorbing one, every monoid mark_done
writes is either that monoid or a freed (none) slot. -/
theorem markDone_J {M : Type} (assocStep transformerStep : Int → Bool)
    (isAbsorb : M → Bool) (g0 : GState M) (m : M) :
    ∀ (fuel : Nat) (g : GState M) (k : TKey),
      Jinv g0 m g →
      Jinv g0 m (markDone assocStep transformerStep isAbsorb fuel g k) := by
  intro fuel
  induction fuel with
  | zero => intro g k h; exact h
  | succ fuel ih =>
    intro g k h
    unfold markDone
    by_cases hdone : statusOf (tryDelete g k) k = TStatus.done
    · rw [if_pos hdone]; exact tryDelete_J g0 m g k h
    · rw [if_neg hdone]
      simp only
      set g1 := tryDelete g k with hg1
      set g2 := setNode g1 k (fun mm => { mm with status := TStatus.done }) with hg2
      set g3 := promoteSuccs g2 (succsOf g2 k) with hg3
      set g4 := (predsOf g3 k).foldl
        (fun gp p => if allSuccsDone gp (succsOf gp p) then
          markDone assocStep transformerStep isAbsorb fuel gp p else gp) g3
        with hg4
      have hJ1 : Jinv g0 m g1 := tryDelete_J g0 m g k h
      have hJ2 : Jinv g0 m g2 := setDone_J g0 m g1 k hJ1
      have hJ3 : Jinv g0 m g3 := promote_J g0 m g2 (succsOf g2 k) hJ2
      have hJ4 : Jinv g0 m g4 := by
        rw [hg4]
        apply foldl_pres (Jinv g0 m)
        · intro g' p hp
          by_cases hc : allSuccsDone g' (succsOf g' p)
          · rw [if_pos hc]; exact ih g' p hp
          · rw [if_neg hc]; exact hp
        · exact hJ3
      have hk0nd : statusOf g0 k ≠ TStatus.done := by
        intro hd
        exact hdone (by rw [statusOf_tryDelete]; exact h.1 k hd)
      cases hlk : lookupTask g4 k with
      | none => exact hJ4
      | some n =>
        simp only
        by_cases hbr : k.kind = TKind.train
            && getOperation assocStep transformerStep k n = Op.toMonoid
        · rw [if_pos hbr]
          cases hm : n.monoid with
          | none => exact hJ4
          | some v =>
            simp only
            by_cases habs : isAbsorb v
            · rw [if_pos habs]
              have hveq : v = m := by
                have hmk : monoidOf g4 k = some v := by
                  simp [monoidOf, hlk, hm]
                rcases hJ4.2 k hk0nd with hc | hc
                · rw [hmk] at hc; simp at hc
                · rw [hmk] at hc
                  simpa using hc
              rw [hveq]
              apply foldl_pres (Jinv g0 m)
              · intro g' k2 hp
                by_cases hc : statusOf g' k2 ≠ TStatus.done && isMoot k k2
                · rw [if_pos hc]
                  exact ih _ k2 (setMonoidM_J g0 m g' k2 hp)
                · rw [if_neg hc]; exact hp
              · exact hJ4
            · rw [if_neg habs]; exact hJ4
        · rw [if_neg hbr]; exact hJ4

theorem lookup_mem {M : Type} (g : GState M) (k : TKey) (n : TNode M)
    (h : lookupTask g k = some n) : (k, n) ∈ g.tasks := by
  unfold lookupTask at h
  cases hf : g.tasks.find? (fun p => decide (p.1 = k)) with
  | none => rw [hf] at h; simp at h
  | some p =>
    rw [hf] at h
    simp at h
    have hp := List.find?_some hf
    simp only [decide_eq_true_eq] at hp
    have hmem := List.mem_of_find?_eq_some hf
    have hpkn : p = (k, n) := Prod.ext hp h
    exact hpkn ▸ hmem

/-! ## Claim C3 -/

/-- An always-absorbing monoid type for the concrete runs (corresponds to
an operator whose to_monoid results report is_absorbing = True); the
pipeline has one associative transformer step. -/
def scStep0 : Int → Bool := fun _ => true

/-- Every step is a transformer in the concrete runs. -/
def scTrans : Int → Bool := fun _ => true

/-- is_absorbing of the concrete monoid values. -/
def scAbs : Nat → Bool := fun _ => true

/-- Batch id d0. -/
def scD0 : BId := batchId 100 0

/-- Batch id d1. -/
def scD1 : BId := batchId 100 1

/-- Seeded train task over all batches (the COMBINE task); non-deletable. -/
def scAll : TKey := TKey.mk TKind.train 0 [scD0, scD1] none

/-- Per-batch train task over d0 (the TO_MONOID task that computes the
absorbing monoid). -/
def scB0 : TKey := TKey.mk TKind.train 0 [scD0] none

/-- Per-batch train task over d1, the not-yet-DONE sibling. -/
def scB1 : TKey := TKey.mk TKind.train 0 [scD1] none

/-- Input scan task for d0. -/
def scA0 : TKey := TKey.mk TKind.apply inputStep [scD0] none

/-- Input scan task for d1. -/
def scA1 : TKey := TKey.mk TKind.apply inputStep [scD1] none

/-- The node of scB0 at the moment the executor calls mark_done on it:
READY, holding the freshly computed absorbing monoid 7. -/
def scB0node : TNode Nat :=
  TNode.mk TStatus.ready (some 7) none true [scA0] [scAll]

/-- The run state _create_tasks_fit builds for one associative step over
batches d0, d1 without metrics (tasks in dictionary insertion order), at
the moment batch d0 has been scanned (DONE) and the TO_MONOID task scB0
has just produced the absorbing monoid 7 and is being marked done; scB1
and the seeded combine task scAll are WAITING, the d1 scan is READY. -/
def scRun : GState Nat :=
  GState.mk
    [(scAll, TNode.mk TStatus.waiting none none false [scB0, scB1] []),
     (scB0, scB0node),
     (scB1, TNode.mk TStatus.waiting none none true [scA1] [scAll]),
     (scA1, TNode.mk TStatus.ready none none true [] [scB1]),
     (scA0, TNode.mk TStatus.done none (some (5, true)) true [] [scB0])]

/-- Claim C3, counterexample.  scB1 is a not-yet-DONE task sharing
(kind, step, held-out) with the absorbing TO_MONOID task scB0; mark_done
on scB0 marks scB1 DONE but never assigns it the absorbing monoid: the
recursive predecessor garbage collection inside the short circuit (via the
combine task scAll) reaches scB1 first and marks it DONE with its monoid
still empty, and the loop then skips it as already DONE.  The siblings end
the run with different monoids (scAll holds 7, scB1 and even scB0 itself
hold none — scB0's monoid is freed because its only successor is DONE), so
the claim that every not-yet-DONE sibling is assigned the same monoid, and
that all siblings end with an identical monoid, fails on this reachable
state. -/
theorem absorbing_shortcircuit_cex :
    isMoot scB0 scB1 = true ∧
    statusOf scRun scB1 ≠ TStatus.done ∧
    statusOf (markDone scStep0 scTrans scAbs 10 scRun scB0) scB1
      = TStatus.done ∧
    monoidOf (markDone scStep0 scTrans scAbs 10 scRun scB0) scB1 = none ∧
    monoidOf (markDone scStep0 scTrans scAbs 10 scRun scB0) scAll = some 7 ∧
    monoidOf (markDone scStep0 scTrans scAbs 10 scRun scB0) scB0 = none := by
  refine ⟨by decide, by decide, by decide, by decide, by decide, by decide⟩

/-- Claim C3, amended: when a TO_MONOID train task k holding an absorbing
monoid m is marked DONE (its predecessors are DONE since it just ran, its
output has not been freed, and — the run invariant — no other not-yet-DONE
task holds a monoid), every not-yet-DONE task sharing (kind, step,
held-out) is marked DONE, and each such task ends holding either the
absorbing monoid m or nothing (its slot may be freed immediately when no
successor needs it); previously-DONE siblings keep whatever monoid they
already computed, so the siblings need not all end with an identical
monoid. -/
theorem absorbing_shortcircuit_amended {M : Type}
    (assocStep transformerStep : Int → Bool) (isAbsorb : M → Bool)
    (g0 : GState M) (k : TKey) (n0 : TNode M) (m : M) (fuel : Nat)
    (hlk0 : lookupTask g0 k = some n0)
    (hkind : k.kind = TKind.train)
    (hop : getOperation assocStep transformerStep k n0 = Op.toMonoid)
    (hmono : n0.monoid = some m)
    (habs : isAbsorb m = true)
    (hnd : n0.status ≠ TStatus.done)
    (hpreds : ∀ p ∈ n0.preds, statusOf g0 p = TStatus.done)
    (hsucc : n0.deletable = false ∨
      ∃ s ∈ n0.succs, statusOf g0 s ≠ TStatus.done)
    (hW : ∀ p ∈ g0.tasks, p.1 ≠ k → p.2.status ≠ TStatus.done →
      p.2.monoid = none) :
    ∀ k2, isMoot k k2 = true → statusOf g0 k2 ≠ TStatus.done →
      statusOf (markDone assocStep transformerStep isAbsorb (fuel + 2) g0 k) k2
          = TStatus.done ∧
        (monoidOf (markDone assocStep transformerStep isAbsorb (fuel + 2) g0 k)
            k2 = none ∨
          monoidOf (markDone assocStep transformerStep isAbsorb (fuel + 2) g0 k)
            k2 = some m) := by
  have hst0 : statusOf g0 k = n0.status := by simp [statusOf, hlk0]
  have hknd : statusOf g0 k ≠ TStatus.done := by rw [hst0]; exact hnd
  have hJ0 : Jinv g0 m g0 := by
    constructor
    · intro k0 h0; exact h0
    · intro k0 h0
      by_cases hk0 : k0 = k
      · subst hk0
        exact Or.inr (by simp [monoidOf, hlk0, hmono])
      · obtain ⟨n, hn⟩ := statusOf_ne_done_lookup g0 k0 h0
        have hmem := lookup_mem g0 k0 n hn
        have hstat : n.status ≠ TStatus.done := by
          rw [statusOf, hn] at h0; exact h0
        have hmn : n.monoid = none := hW (k0, n) hmem hk0 hstat
        refine Or.inl ?_
        rw [monoidOf, hn]
        exact hmn
  intro k2 hmoot hk2nd
  have hmonoid := (markDone_J assocStep transformerStep isAbsorb g0 m
    (fuel + 2) g0 k hJ0).2 k2 hk2nd
  refine ⟨?_, hmonoid⟩
  have hcond : ¬ (n0.deletable && allSuccsDone g0 n0.succs) = true := by
    rcases hsucc with hdel | ⟨s, hs, hsnd⟩
    · simp [hdel]
    · simp only [Bool.and_eq_true, not_and]
      intro _
      simp only [allSuccsDone, List.all_eq_true, decide_eq_true_eq, not_forall]
      exact ⟨s, hs, hsnd⟩
  have hg1eq : tryDelete g0 k = g0 := by
    unfold tryDelete
    rw [hlk0]
    simp only
    rw [if_neg hcond]
  show statusOf (markDone assocStep transformerStep isAbsorb
    ((fuel + 1) + 1) g0 k) k2 = TStatus.done
  unfold markDone
  rw [hg1eq, if_neg hknd]
  simp only
  set g2 := setNode g0 k (fun mm => { mm with status := TStatus.done }) with hg2
  set g3 := promoteSuccs g2 (succsOf g2 k) with hg3
  set g4 := (predsOf g3 k).foldl
    (fun gp p => if allSuccsDone gp (succsOf gp p) then
      markDone assocStep transformerStep isAbsorb (fuel + 1) gp p else gp) g3
    with hg4
  have hsuccs0 : succsOf g0 k = n0.succs := by simp [succsOf, hlk0]
  have hpreds0 : predsOf g0 k = n0.preds := by simp [predsOf, hlk0]
  have hmon0 : monoidOf g0 k = some m := by simp [monoidOf, hlk0, hmono]
  have hsuccs2 : succsOf g2 k = n0.succs := by
    rw [hg2, succsOf_setNode_keepEdges g0 k
      (fun mm => { mm with status := TStatus.done }) (fun _ => rfl) k]
    exact hsuccs0
  have hpreds3 : predsOf g3 k = n0.preds := by
    rw [hg3, predsOf_promoteSuccs, hg2, predsOf_setNode_keepEdges g0 k
      (fun mm => { mm with status := TStatus.done }) (fun _ => rfl) k]
    exact hpreds0
  have hsuccs3 : succsOf g3 k = n0.succs := by
    rw [hg3, succsOf_promoteSuccs]
    exact hsuccs2
  have hmon3 : monoidOf g3 k = some m := by
    rw [hg3, monoidOf_promoteSuccs, hg2, monoidOf_setNode_keepMonoid g0 k
      (fun mm => { mm with status := TStatus.done }) (fun _ => rfl) k]
    exact hmon0
  have hkeys3 : keysOf g3 = keysOf g0 := by
    rw [hg3, keysOf_promoteSuccs, hg2, keysOf_setNode]
  have hstat3 : ∀ p ∈ n0.preds, statusOf g3 p = TStatus.done := by
    intro p hp
    rw [hg3]
    apply statusOf_promoteSuccs_done
    rw [hg2]
    exact statusOf_setDone g0 k p (hpreds p hp)
  have hP4 : monoidOf g4 k = some m ∧ predsOf g4 k = n0.preds ∧
      succsOf g4 k = n0.succs ∧ keysOf g4 = keysOf g0 := by
    have hfold : (monoidOf g4 k = some m ∧ predsOf g4 k = n0.preds ∧
        succsOf g4 k = n0.succs ∧ keysOf g4 = keysOf g0 ∧
        ∀ p ∈ n0.preds, statusOf g4 p = TStatus.done) := by
      rw [hg4, hpreds3]
      apply foldl_pres_mem (fun g' =>
        monoidOf g' k = some m ∧ predsOf g' k = n0.preds ∧
        succsOf g' k = n0.succs ∧ keysOf g' = keysOf g0 ∧
        ∀ p ∈ n0.preds, statusOf g' p = TStatus.done)
      · intro g' p hpmem hP
        by_cases hc : allSuccsDone g' (succsOf g' p)
        · rw [if_pos hc]
          have hpdone : statusOf g' p = TStatus.done := hP.2.2.2.2 p hpmem
          have hpk : p ≠ k := by
            intro he
            exact hknd (he ▸ hpreds p hpmem)
          rcases markDone_on_done assocStep transformerStep isAbsorb
            (fuel + 1) g' p hpdone with heq | heq
          · rw [heq]; exact hP
          · rw [heq]
            refine ⟨?_, ?_, ?_, ?_, ?_⟩
            · rcases monoidOf_tryDelete_cases g' p k with hcc | ⟨hkp, _⟩
              · rw [hcc]; exact hP.1
              · exact absurd hkp.symm hpk
            · rw [predsOf_tryDelete]; exact hP.2.1
            · rw [succsOf_tryDelete]; exact hP.2.2.1
            · rw [keysOf_tryDelete]; exact hP.2.2.2.1
            · intro q hq
              rw [statusOf_tryDelete]
              exact hP.2.2.2.2 q hq
        · rw [if_neg hc]; exact hP
      · exact ⟨hmon3, hpreds3, hsuccs3, hkeys3, hstat3⟩
    exact ⟨hfold.1, hfold.2.1, hfold.2.2.1, hfold.2.2.2.1⟩
  obtain ⟨n4, hlk4⟩ : ∃ n4, lookupTask g4 k = some n4 :=
    lookup_some_of_mem_keys g4 k
      (by rw [hP4.2.2.2]; exact mem_keysOf_of_lookup g0 k n0 hlk0)
  have hm4 : n4.monoid = some m := by
    have := hP4.1
    rw [monoidOf, hlk4] at this
    exact this
  have hp4 : n4.preds = n0.preds := by
    have := hP4.2.1
    rw [predsOf, hlk4] at this
    exact this
  have hs4 : n4.succs = n0.succs := by
    have := hP4.2.2.1
    rw [succsOf, hlk4] at this
    exact this
  have hop4 : getOperation assocStep transformerStep k n4 = Op.toMonoid := by
    rw [getOperation_congr assocStep transformerStep k n4 n0 hp4 hs4]
    exact hop
  rw [hlk4]
  simp only
  rw [if_pos (by simp [hkind, hop4] : (decide (k.kind = TKind.train) &&
    decide (getOperation assocStep transformerStep k n4 = Op.toMonoid)) = true)]
  rw [hm4]
  simp only
  rw [if_pos habs]
  have hk2mem : k2 ∈ keysOf g4 := by
    rw [hP4.2.2.2]
    obtain ⟨n2, hn2⟩ := statusOf_ne_done_lookup g0 k2 hk2nd
    exact mem_keysOf_of_lookup g0 k2 n2 hn2
  apply foldl_establish (fun g' => statusOf g' k2 = TStatus.done)
    (fun g5 k2' =>
      if statusOf g5 k2' ≠ TStatus.done && isMoot k k2' then
        markDone assocStep transformerStep isAbsorb (fuel + 1)
          (setNode g5 k2' (fun mm => { mm with monoid := some m })) k2'
      else g5) k2
  · intro s
    by_cases hc : statusOf s k2 ≠ TStatus.done && isMoot k k2
    · rw [if_pos hc]
      exact markDone_marks assocStep transformerStep isAbsorb fuel _ k2
    · rw [if_neg hc]
      simp only [Bool.and_eq_true, decide_eq_true_eq, not_and] at hc
      by_cases hs2 : statusOf s k2 = TStatus.done
      · exact hs2
      · exact absurd hmoot (hc hs2)
  · intro s a hs
    by_cases hc : statusOf s a ≠ TStatus.done && isMoot k a
    · rw [if_pos hc]
      apply markDone_preserves_done
      rw [statusOf_setNode_keepStatus s a
        (fun mm => { mm with monoid := some m }) (fun _ => rfl) k2]
      exact hs
    · rw [if_neg hc]; exact hs
  · exact hk2mem

/-- Claim C3, amended, witness: applies the theorem to the concrete run
state of the counterexample with k2 the sibling over batch d1, fuel 8. -/
theorem absorbing_shortcircuit_amended_witness :
    lookupTask scRun scB0 = some scB0node ∧ isMoot scB0 scB1 = true ∧
    (statusOf (markDone scStep0 scTrans scAbs (8 + 2) scRun scB0) scB1
        = TStatus.done ∧
      (monoidOf (markDone scStep0 scTrans scAbs (8 + 2) scRun scB0) scB1
          = none ∨
        monoidOf (markDone scStep0 scTrans scAbs (8 + 2) scRun scB0) scB1
          = some 7)) :=
  ⟨by decide, by decide,
    absorbing_shortcircuit_amended scStep0 scTrans scAbs scRun scB0 scB0node
      7 8 (by decide) (by decide) (by decide) (by decide) (by decide)
      (by decide) (by decide)
      (Or.inr ⟨scAll, by decide, by decide⟩) (by decide)
      scB1 (by decide) (by decide)⟩

/-! ## The task-graph builder for fit mode (source lines 493-618)

_TaskGraph holds the memo dictionary all_tasks and the work list
fresh_tasks; find_or_create creates a task exactly when its memo key is
absent, appending it to both, and returns the dictionary entry (so two
requests for one key give the identical object — modelled by a unique
creation id on each task).  _create_tasks_fit seeds one non-deletable
TrainTask per step over all batch ids and (with metrics) one non-deletable
MetricTask per batch id, then expands tasks popped LIFO from the work list
until it is empty.  The pipeline facts the builder consults are bundled in
FitCfg: per step is_pretrained / is_associative / is_incremental, the
predecessor-step ids (step_id_preds, with -1 the synthetic input), the sink
step id, all batch ids, need_metrics, and the incremental flag of the
driver. -/

/-- A builder task object: the unique id models Python object identity;
deletable_output starts true; preds/succs are appended during expansion. -/
structure BTask where
  uid : Nat
  deletable : Bool
  preds : List TKey
  succs : List TKey
deriving DecidableEq, Repr

/-- Builder state: all_tasks in insertion order, the fresh_tasks work list
(task objects are recovered from their keys through the dictionary), and
the next object id. -/
structure BState where
  allTasks : List (TKey × BTask)
  freshTasks : List TKey
  nextUid : Nat
deriving DecidableEq, Repr

/-- Source _TaskGraph.find_or_create: return the memoized task, creating
it (and queueing it fresh) only if the key is new. -/
def findOrCreate (st : BState) (k : TKey) : BTask × BState :=
  match st.allTasks.find? (fun p => decide (p.1 = k)) with
  | some p => (p.2, st)
  | none =>
    let t := BTask.mk st.nextUid true [] []
    (t, BState.mk (st.allTasks ++ [(k, t)]) (st.freshTasks ++ [k])
      (st.nextUid + 1))

/-- Field update of the task stored under a key. -/
def updateTask (st : BState) (k : TKey) (f : BTask → BTask) : BState :=
  BState.mk (st.allTasks.map (fun p => if p.1 = k then (p.1, f p.2) else p))
    st.freshTasks st.nextUid

/-- Keys of the builder dictionary in insertion order. -/
def bKeys (st : BState) : List TKey :=
  st.allTasks.map (fun p => p.1)

/-! ## Claim C4 -/

/-- Claim C4: two find_or_create requests with the same memo key within
one graph build return the identical task object (same object id) with no
second insertion, and the dictionary keeps mapping each memo key to exactly
one task (its key list stays duplicate-free). -/
theorem findOrCreate_memoizes (st : BState) (k : TKey)
    (hnd : (bKeys st).Nodup) :
    (findOrCreate (findOrCreate st k).2 k).1 = (findOrCreate st k).1 ∧
    (findOrCreate (findOrCreate st k).2 k).2 = (findOrCreate st k).2 ∧
    (bKeys (findOrCreate st k).2).Nodup := by
  unfold findOrCreate
  cases hf : st.allTasks.find? (fun p => decide (p.1 = k)) with
  | some p =>
    simp only [hf]
    exact ⟨trivial, trivial, hnd⟩
  | none =>
    simp only [hf]
    have hnotin : k ∉ bKeys st := by
      intro hmem
      rcases List.mem_map.mp hmem with ⟨q, hq, hqk⟩
      have := List.find?_eq_none.mp hf q hq
      simp [hqk] at this
    have hfind2 : ((st.allTasks ++ [(k, BTask.mk st.nextUid true [] [])]).find?
        (fun p => decide (p.1 = k)))
        = some (k, BTask.mk st.nextUid true [] []) := by
      rw [List.find?_append, hf]
      simp
    simp only [hfind2]
    refine ⟨trivial, trivial, ?_⟩
    unfold bKeys
    simp only [List.map_append, List.map_cons, List.map_nil]
    rw [List.nodup_append]
    refine ⟨hnd, by simp, ?_⟩
    intro a ha hak
    have hak2 : a = k := by simpa using hak
    exact hnotin (hak2 ▸ ha)

/-- Claim C4, witness: a build state holding one task; the repeated
request for a fresh key returns the same object and state. -/
theorem findOrCreate_memoizes_witness :
    (bKeys (BState.mk [(scB0, BTask.mk 0 true [] [])] [] 1)).Nodup ∧
    ((findOrCreate (findOrCreate
        (BState.mk [(scB0, BTask.mk 0 true [] [])] [] 1) scB1).2 scB1).1
      = (findOrCreate (BState.mk [(scB0, BTask.mk 0 true [] [])] [] 1) scB1).1 ∧
    (bKeys (findOrCreate
        (BState.mk [(scB0, BTask.mk 0 true [] [])] [] 1) scB1).2).Nodup) := by
  constructor
  · decide
  · have h := findOrCreate_memoizes (BState.mk [(scB0, BTask.mk 0 true [] [])] [] 1)
      scB1 (by decide)
    exact ⟨h.1, h.2.2⟩

/-! ## _create_tasks_fit -/

/-- Pipeline facts the fit-mode builder consults. -/
structure FitCfg where
  numSteps : Nat
  pretrained : Int → Bool
  assoc : Int → Bool
  incr : Int → Bool
  stepPredsF : Int → List Int
  sinkStep : Int
  allBatchIds : List BId
  needMetrics : Bool
  incremental : Bool

/-- The predecessor memo keys the expansion of one popped task requests,
in find_or_create call order; a direct transcription of the expansion body
of _create_tasks_fit (lines 544-615).  batch_ids[:-1] is dropLast,
batch_ids[-1:] is the final singleton, and the apply-task cutoff rebuilds
batch ids from the fold letter of the last batch id. -/
def fitPredKeys (cfg : FitCfg) (k : TKey) : List TKey :=
  match k.kind with
  | TKind.train =>
    if cfg.pretrained k.stepId then []
    else if k.batchIds.length = 1 then
      (cfg.stepPredsF k.stepId).map
        (fun p => TKey.mk TKind.apply p k.batchIds none)
    else if cfg.assoc k.stepId then
      k.batchIds.map (fun b => TKey.mk TKind.train k.stepId [b] none)
    else if cfg.incr k.stepId then
      TKey.mk TKind.train k.stepId k.batchIds.dropLast none ::
        (cfg.stepPredsF k.stepId).map (fun p =>
          TKey.mk TKind.apply p (k.batchIds.drop (k.batchIds.length - 1)) none)
    else
      (cfg.stepPredsF k.stepId).flatMap (fun p =>
        k.batchIds.map (fun b => TKey.mk TKind.apply p [b] none))
  | TKind.apply =>
    if k.stepId = inputStep then []
    else
      let lastB := k.batchIds.getLastD []
      let fitUpto := if cfg.incremental then getIdx lastB + 1
        else cfg.allBatchIds.length
      TKey.mk TKind.train k.stepId
          ((List.range fitUpto).map (fun i => batchId (getFold lastB) i)) none ::
        (cfg.stepPredsF k.stepId).map
          (fun p => TKey.mk TKind.apply p k.batchIds none)
  | TKind.metric =>
    [TKey.mk TKind.apply inputStep k.batchIds none,
     TKey.mk TKind.apply cfg.sinkStep k.batchIds none]

/-- Run find_or_create over a list of keys, keeping only the state. -/
def foCreateMany (st : BState) (ks : List TKey) : BState :=
  ks.foldl (fun s k2 => (findOrCreate s k2).2) st

/-- The succs-population loop: pred_task.succs.append(task) for each
predecessor, in order and with multiplicity. -/
def appendSuccs (st : BState) (preds : List TKey) (k : TKey) : BState :=
  preds.foldl (fun s p =>
    updateTask s p (fun t => BTask.mk t.uid t.deletable t.preds (t.succs ++ [k])))
    st

/-- Expansion of one popped task: create or find its predecessors, record
them as its preds, and append it to each predecessor's succs. -/
def expandTask (cfg : FitCfg) (st : BState) (k : TKey) : BState :=
  let preds := fitPredKeys cfg k
  let st1 := foCreateMany st preds
  let st2 := updateTask st1 k
    (fun t => BTask.mk t.uid t.deletable (t.preds ++ preds) t.succs)
  appendSuccs st2 preds k

/-- The work-list loop of _create_tasks_fit: pop the last fresh task and
expand it; none when fuel runs out with work left. -/
def buildLoop (cfg : FitCfg) : Nat → BState → Option BState
  | 0, st => if st.freshTasks.isEmpty then some st else none
  | fuel + 1, st =>
    match st.freshTasks.getLast? with
    | none => some st
    | some k =>
      buildLoop cfg fuel
        (expandTask cfg
          (BState.mk st.allTasks st.freshTasks.dropLast st.nextUid) k)

/-- Seeding loop of _create_tasks_fit: one non-deletable TrainTask per
step over all batch ids. -/
def seedTrains (cfg : FitCfg) (st : BState) : BState :=
  (List.range cfg.numSteps).foldl (fun s i =>
    updateTask
      (findOrCreate s (TKey.mk TKind.train (Int.ofNat i) cfg.allBatchIds none)).2
      (TKey.mk TKind.train (Int.ofNat i) cfg.allBatchIds none)
      (fun t => BTask.mk t.uid false t.preds t.succs)) st

/-- Seeding loop of _create_tasks_fit: with metrics requested, one
non-deletable MetricTask per batch id. -/
def seedMetrics (cfg : FitCfg) (st : BState) : BState :=
  if cfg.needMetrics then
    cfg.allBatchIds.foldl (fun s b =>
      updateTask
        (findOrCreate s (TKey.mk TKind.metric scoreStep [b] none)).2
        (TKey.mk TKind.metric scoreStep [b] none)
        (fun t => BTask.mk t.uid false t.preds t.succs)) st
  else st

/-- Source _create_tasks_fit: seed the per-step train tasks over all batch
ids and the per-batch metric tasks (all non-deletable), then run the
work-list loop. -/
def createTasksFit (cfg : FitCfg) (fuel : Nat) : Option BState :=
  buildLoop cfg fuel (seedMetrics cfg (seedTrains cfg (BState.mk [] [] 0)))

/-! Helper list lemmas for the builder proofs. -/

theorem getLastD_mem {α : Type} :
    ∀ (l : List α), l ≠ [] → ∀ d, l.getLastD d ∈ l := by
  intro l
  induction l with
  | nil => intro h; exact absurd rfl h
  | cons a as ih =>
    intro _ d
    cases has : as with
    | nil => simp [List.getLastD]
    | cons b bs =>
      rw [List.getLastD_cons]
      have := ih (by simp [has]) a
      rw [has] at this
      exact List.mem_cons.mpr (Or.inr this)

theorem getLast?_some_decomp {α : Type} (l : List α) (a : α)
    (h : l.getLast? = some a) : l = l.dropLast ++ [a] := by
  induction l with
  | nil => simp at h
  | cons x xs ih =>
    cases hxs : xs with
    | nil =>
      subst hxs
      simp only [List.getLast?_singleton, Option.some.injEq] at h
      simp [h]
    | cons y ys =>
      rw [hxs] at ih h
      rw [List.getLast?_cons_cons] at h
      have := ih h
      calc x :: y :: ys = x :: (y :: ys) := rfl
        _ = x :: ((y :: ys).dropLast ++ [a]) := by rw [← this]
        _ = (x :: y :: ys).dropLast ++ [a] := by simp

theorem getLast?_none_nil {α : Type} (l : List α) (h : l.getLast? = none) :
    l = [] := by
  cases l with
  | nil => rfl
  | cons x xs =>
    exfalso
    induction xs generalizing x with
    | nil => simp at h
    | cons y ys ih =>
      rw [List.getLast?_cons_cons] at h
      exact ih y h

/-! Builder state-manipulation lemmas. -/

theorem bKeys_updateTask (st : BState) (k : TKey) (f : BTask → BTask) :
    bKeys (updateTask st k f) = bKeys st := by
  unfold bKeys updateTask
  simp only [List.map_map]
  apply List.map_congr_left
  intro p _
  by_cases h : p.1 = k <;> simp [h]

theorem fresh_updateTask (st : BState) (k : TKey) (f : BTask → BTask) :
    (updateTask st k f).freshTasks = st.freshTasks := rfl

theorem mem_updateTask_elim (st : BState) (k : TKey) (f : BTask → BTask) :
    ∀ p ∈ (updateTask st k f).allTasks, ∃ q ∈ st.allTasks,
      p = (if q.1 = k then (q.1, f q.2) else q) := by
  intro p hp
  unfold updateTask at hp
  simp only at hp
  rcases List.mem_map.mp hp with ⟨q, hq, hqe⟩
  exact ⟨q, hq, hqe.symm⟩

theorem findOrCreate_cases (st : BState) (k2 : TKey) :
    (findOrCreate st k2).2 = st ∨
      (k2 ∉ bKeys st ∧
        (findOrCreate st k2).2 = BState.mk
          (st.allTasks ++ [(k2, BTask.mk st.nextUid true [] [])])
          (st.freshTasks ++ [k2]) (st.nextUid + 1)) := by
  unfold findOrCreate
  cases hf : st.allTasks.find? (fun p => decide (p.1 = k2)) with
  | some p => exact Or.inl rfl
  | none =>
    refine Or.inr ⟨?_, rfl⟩
    intro hmem
    rcases List.mem_map.mp hmem with ⟨q, hq, hqk⟩
    have := List.find?_eq_none.mp hf q hq
    simp [hqk] at this

/-! The builder invariant.  A key is well-formed when its batch ids are a
nonempty subset of all batch ids of the run. -/

/-- Well-formed memo key in the fit graph. -/
def wfKey (cfg : FitCfg) (k : TKey) : Prop :=
  k.batchIds ≠ [] ∧ ∀ b ∈ k.batchIds, b ∈ cfg.allBatchIds

/-- Work-list invariant of _create_tasks_fit: a task still on the work
list has empty preds, an expanded task has exactly the preds its expansion
computes, the dictionary keys and the work list are duplicate-free, the
work list only holds dictionary keys, and all keys are well-formed. -/
def BInv (cfg : FitCfg) (st : BState) : Prop :=
  (∀ p ∈ st.allTasks, p.1 ∈ st.freshTasks → p.2.preds = []) ∧
  (∀ p ∈ st.allTasks, p.1 ∉ st.freshTasks → p.2.preds = fitPredKeys cfg p.1) ∧
  (bKeys st).Nodup ∧
  st.freshTasks.Nodup ∧
  (∀ k2 ∈ st.freshTasks, k2 ∈ bKeys st) ∧
  (∀ p ∈ st.allTasks, wfKey cfg p.1)

/-- The invariant while one popped task k is being expanded: k has been
removed from the work list but its preds are still empty. -/
def BInvX (cfg : FitCfg) (st : BState) (k : TKey) : Prop :=
  (∀ p ∈ st.allTasks, p.1 ∈ st.freshTasks → p.2.preds = []) ∧
  (∀ p ∈ st.allTasks, p.1 ∉ st.freshTasks → p.1 ≠ k →
    p.2.preds = fitPredKeys cfg p.1) ∧
  (bKeys st).Nodup ∧
  st.freshTasks.Nodup ∧
  (∀ k2 ∈ st.freshTasks, k2 ∈ bKeys st) ∧
  (∀ p ∈ st.allTasks, wfKey cfg p.1) ∧
  (∀ p ∈ st.allTasks, p.1 = k → p.2.preds = []) ∧
  k ∈ bKeys st ∧ k ∉ st.freshTasks

theorem findOrCreate_BInvX (cfg : FitCfg) (st : BState) (k k2 : TKey)
    (hwf : wfKey cfg k2) (h : BInvX cfg st k) :
    BInvX cfg (findOrCreate st k2).2 k := by
  rcases findOrCreate_cases st k2 with he | ⟨hnotin, he⟩
  · rw [he]; exact h
  · rw [he]
    obtain ⟨h1, h2, h3, h4, h5, h6, h7, h8, h9⟩ := h
    have hknew : k ≠ k2 := fun he2 => hnotin (he2 ▸ h8)
    refine ⟨?_, ?_, ?_, ?_, ?_, ?_, ?_, ?_, ?_⟩
    · intro p hp hpf
      rcases List.mem_append.mp hp with hpo | hpn
      · rcases List.mem_append.mp hpf with hf | hf
        · exact h1 p hpo hf
        · exfalso
          have hpk : p.1 = k2 := by simpa using hf
          exact hnotin (hpk ▸ List.mem_map.mpr ⟨p, hpo, rfl⟩)
      · have : p = (k2, BTask.mk st.nextUid true [] []) := by simpa using hpn
        rw [this]
    · intro p hp hpf hpk
      rcases List.mem_append.mp hp with hpo | hpn
      · exact h2 p hpo (fun hf => hpf (List.mem_append.mpr (Or.inl hf))) hpk
      · exfalso
        have : p = (k2, BTask.mk st.nextUid true [] []) := by simpa using hpn
        exact hpf (by rw [this]; exact List.mem_append.mpr (Or.inr (by simp)))
    · unfold bKeys
      simp only [List.map_append, List.map_cons, List.map_nil]
      rw [List.nodup_append]
      refine ⟨h3, by simp, ?_⟩
      intro a ha hak
      have hak2 : a = k2 := by simpa using hak
      exact hnotin (hak2 ▸ ha)
    · rw [List.nodup_append]
      refine ⟨h4, by simp, ?_⟩
      intro a ha hak
      have hak2 : a = k2 := by simpa using hak
      exact hnotin (hak2 ▸ h5 a ha)
    · intro q hq
      rcases List.mem_append.mp hq with hf | hf
      · unfold bKeys
        rw [List.map_append]
        exact List.mem_append.mpr (Or.inl (h5 q hf))
      · have : q = k2 := by simpa using hf
        unfold bKeys
        rw [List.map_append]
        exact List.mem_append.mpr (Or.inr (by simp [this]))
    · intro p hp
      rcases List.mem_append.mp hp with hpo | hpn
      · exact h6 p hpo
      · have : p = (k2, BTask.mk st.nextUid true [] []) := by simpa using hpn
        rw [this]
        exact hwf
    · intro p hp hpk
      rcases List.mem_append.mp hp with hpo | hpn
      · exact h7 p hpo hpk
      · have : p = (k2, BTask.mk st.nextUid true [] []) := by simpa using hpn
        rw [this]
    · unfold bKeys
      rw [List.map_append]
      exact List.mem_append.mpr (Or.inl h8)
    · intro hf
      rcases List.mem_append.mp hf with hf | hf
      · exact h9 hf
      · exact hknew (by simpa using hf)

theorem foCreateMany_BInvX (cfg : FitCfg) (k : TKey) (ks : List TKey)
    (hwf : ∀ k2 ∈ ks, wfKey cfg k2) (st : BState) (h : BInvX cfg st k) :
    BInvX cfg (foCreateMany st ks) k := by
  unfold foCreateMany
  apply foldl_pres_mem (fun s => BInvX cfg s k)
  · intro s k2 hk2 hs
    exact findOrCreate_BInvX cfg s k k2 (hwf k2 hk2) hs
  · exact h

/-- All batch ids of a fit run: d0 .. d(n-1) as built by fit_with_batches
(fold letter d = code point 100). -/
def dRange (n : Nat) : List BId :=
  (List.range n).map (fun i => batchId 100 i)

theorem mem_dRange (n : Nat) (b : BId) :
    b ∈ dRange n ↔ ∃ j, j < n ∧ b = batchId 100 j := by
  unfold dRange
  simp only [List.mem_map, List.mem_range]
  constructor
  · rintro ⟨j, hj, hb⟩; exact ⟨j, hj, hb.symm⟩
  · rintro ⟨j, hj, hb⟩; exact ⟨j, hj, hb.symm⟩

/-- Every predecessor key the expansion requests is well-formed. -/
theorem fitPredKeys_wf (cfg : FitCfg) (n : Nat)
    (hn : cfg.allBatchIds = dRange n) (hn1 : 1 ≤ n) (k : TKey)
    (hwfk : wfKey cfg k) :
    ∀ k2 ∈ fitPredKeys cfg k, wfKey cfg k2 := by
  obtain ⟨hne, hsub⟩ := hwfk
  obtain ⟨kk, sid, bids, ho⟩ := k
  simp only at hne hsub
  cases kk with
  | train =>
    intro k2 hk2
    simp only [fitPredKeys] at hk2
    by_cases hpre : cfg.pretrained sid
    · simp [hpre] at hk2
    · rw [if_neg hpre] at hk2
      by_cases hlen : bids.length = 1
      · rw [if_pos hlen] at hk2
        rcases List.mem_map.mp hk2 with ⟨p, _, hpk⟩
        rw [← hpk]
        exact ⟨hne, hsub⟩
      · rw [if_neg hlen] at hk2
        by_cases hassoc : cfg.assoc sid
        · rw [if_pos hassoc] at hk2
          rcases List.mem_map.mp hk2 with ⟨b, hb, hpk⟩
          rw [← hpk]
          exact ⟨by simp, by simpa using hsub b hb⟩
        · rw [if_neg hassoc] at hk2
          by_cases hincr : cfg.incr sid
          · rw [if_pos hincr] at hk2
            have hlen2 : 2 ≤ bids.length := by
              have : bids.length ≠ 0 := by
                intro h0
                exact hne (List.length_eq_zero.mp h0)
              omega
            rcases List.mem_cons.mp hk2 with hk2h | hk2t
            · rw [hk2h]
              refine ⟨?_, ?_⟩
              · intro hnil
                have := congrArg List.length hnil
                simp only [List.length_dropLast, List.length_nil] at this
                omega
              · intro b hb
                exact hsub b ((List.dropLast_sublist bids).subset hb)
            · rcases List.mem_map.mp hk2t with ⟨p, _, hpk⟩
              rw [← hpk]
              refine ⟨?_, ?_⟩
              · intro hnil
                have := congrArg List.length hnil
                simp only [List.length_drop, List.length_nil] at this
                omega
              · intro b hb
                exact hsub b (List.drop_subset _ bids hb)
          · rw [if_neg hincr] at hk2
            rcases List.mem_flatMap.mp hk2 with ⟨p, _, hpm⟩
            rcases List.mem_map.mp hpm with ⟨b, hb, hpk⟩
            rw [← hpk]
            exact ⟨by simp, by simpa using hsub b hb⟩
  | apply =>
    intro k2 hk2
    simp only [fitPredKeys] at hk2
    by_cases hin : sid = inputStep
    · simp [hin] at hk2
    · rw [if_neg hin] at hk2
      have hlast : bids.getLastD [] ∈ bids := getLastD_mem bids hne []
      have hlastAll : bids.getLastD [] ∈ cfg.allBatchIds := hsub _ hlast
      rw [hn] at hlastAll
      rcases (mem_dRange n _).mp hlastAll with ⟨j, hj, hbj⟩
      have hfold : getFold (bids.getLastD []) = 100 := by
        rw [hbj]; exact getFold_batchId 100 j
      have hidx : getIdx (bids.getLastD []) = j := by
        rw [hbj]; exact getIdx_batchId 100 j
      have hlenAll : cfg.allBatchIds.length = n := by
        rw [hn]; unfold dRange; simp
      rcases List.mem_cons.mp hk2 with hk2h | hk2t
      · rw [hk2h]
        constructor
        · intro hnil
          have := congrArg List.length hnil
          simp only [List.length_map, List.length_range, List.length_nil] at this
          by_cases hincm : cfg.incremental
          · rw [if_pos hincm] at this; omega
          · rw [if_neg hincm] at this; omega
        · intro b hb
          simp only [List.mem_map, List.mem_range] at hb
          rcases hb with ⟨i, hi, hbi⟩
          have hup : i < n := by
            by_cases hincm : cfg.incremental
            · rw [if_pos hincm] at hi; omega
            · rw [if_neg hincm] at hi; omega
          rw [hn]
          apply (mem_dRange n b).mpr
          exact ⟨i, hup, by rw [← hbi, hfold]⟩
      · rcases List.mem_map.mp hk2t with ⟨p, _, hpk⟩
        rw [← hpk]
        exact ⟨hne, hsub⟩
  | metric =>
    intro k2 hk2
    simp only [fitPredKeys] at hk2
    rcases List.mem_cons.mp hk2 with hk2h | hk2t
    · rw [hk2h]; exact ⟨hne, hsub⟩
    · have : k2 = TKey.mk TKind.apply cfg.sinkStep bids none := by
        simpa using hk2t
      rw [this]; exact ⟨hne, hsub⟩

/-- find_or_create preserves the full builder invariant when the requested
key is well-formed. -/
theorem findOrCreate_BInv (cfg : FitCfg) (st : BState) (k2 : TKey)
    (hwf : wfKey cfg k2) (h : BInv cfg st) :
    BInv cfg (findOrCreate st k2).2 := by
  rcases findOrCreate_cases st k2 with he | ⟨hnotin, he⟩
  · rw [he]; exact h
  · rw [he]
    obtain ⟨h1, h2, h3, h4, h5, h6⟩ := h
    refine ⟨?_, ?_, ?_, ?_, ?_, ?_⟩
    · intro p hp hpf
      rcases List.mem_append.mp hp with hpo | hpn
      · rcases List.mem_append.mp hpf with hf | hf
        · exact h1 p hpo hf
        · exfalso
          have hpk : p.1 = k2 := by simpa using hf
          exact hnotin (hpk ▸ List.mem_map.mpr ⟨p, hpo, rfl⟩)
      · have : p = (k2, BTask.mk st.nextUid true [] []) := by simpa using hpn
        rw [this]
    · intro p hp hpf
      rcases List.mem_append.mp hp with hpo | hpn
      · exact h2 p hpo (fun hf => hpf (List.mem_append.mpr (Or.inl hf)))
      · exfalso
        have : p = (k2, BTask.mk st.nextUid true [] []) := by simpa using hpn
        exact hpf (by rw [this]; exact List.mem_append.mpr (Or.inr (by simp)))
    · unfold bKeys
      simp only [List.map_append, List.map_cons, List.map_nil]
      rw [List.nodup_append]
      refine ⟨h3, by simp, ?_⟩
      intro a ha hak
      have hak2 : a = k2 := by simpa using hak
      exact hnotin (hak2 ▸ ha)
    · rw [List.nodup_append]
      refine ⟨h4, by simp, ?_⟩
      intro a ha hak
      have hak2 : a = k2 := by simpa using hak
      exact hnotin (hak2 ▸ h5 a ha)
    · intro q hq
      rcases List.mem_append.mp hq with hf | hf
      · unfold bKeys
        rw [List.map_append]
        exact List.mem_append.mpr (Or.inl (h5 q hf))
      · have : q = k2 := by simpa using hf
        unfold bKeys
        rw [List.map_append]
        exact List.mem_append.mpr (Or.inr (by simp [this]))
    · intro p hp
      rcases List.mem_append.mp hp with hpo | hpn
      · exact h6 p hpo
      · have : p = (k2, BTask.mk st.nextUid true [] []) := by simpa using hpn
        rw [this]
        exact hwf

/-- updateTask with a preds-preserving function keeps the builder
invariant. -/
theorem updateTask_predsKept_BInv (cfg : FitCfg) (st : BState) (k2 : TKey)
    (f : BTask → BTask) (hf : ∀ t, (f t).preds = t.preds)
    (h : BInv cfg st) : BInv cfg (updateTask st k2 f) := by
  obtain ⟨h1, h2, h3, h4, h5, h6⟩ := h
  refine ⟨?_, ?_, ?_, ?_, ?_, ?_⟩
  · intro p hp hpf
    rcases mem_updateTask_elim st k2 f p hp with ⟨q, hq, hpe⟩
    rw [fresh_updateTask] at hpf
    by_cases hqk : q.1 = k2
    · rw [hpe, if_pos hqk]
      simp only [hf]
      exact h1 q hq (by rw [hpe, if_pos hqk] at hpf; exact hqk ▸ hpf)
    · rw [hpe, if_neg hqk]
      exact h1 q hq (by rw [hpe, if_neg hqk] at hpf; exact hpf)
  · intro p hp hpf
    rcases mem_updateTask_elim st k2 f p hp with ⟨q, hq, hpe⟩
    rw [fresh_updateTask] at hpf
    by_cases hqk : q.1 = k2
    · rw [hpe, if_pos hqk]
      simp only [hf]
      exact h2 q hq (by rw [hpe, if_pos hqk] at hpf; exact hqk ▸ hpf)
    · rw [hpe, if_neg hqk]
      exact h2 q hq (by rw [hpe, if_neg hqk] at hpf; exact hpf)
  · rw [bKeys_updateTask]; exact h3
  · rw [fresh_updateTask]; exact h4
  · rw [fresh_updateTask, bKeys_updateTask]; exact h5
  · intro p hp
    rcases mem_updateTask_elim st k2 f p hp with ⟨q, hq, hpe⟩
    by_cases hqk : q.1 = k2
    · rw [hpe, if_pos hqk]
      exact h6 q hq
    · rw [hpe, if_neg hqk]
      exact h6 q hq

/-- The seeded state satisfies the builder invariant. -/
theorem seeds_BInv (cfg : FitCfg) (n : Nat) (hn : cfg.allBatchIds = dRange n)
    (hn1 : 1 ≤ n) :
    BInv cfg (seedMetrics cfg (seedTrains cfg (BState.mk [] [] 0))) := by
  have hwfAll : cfg.allBatchIds ≠ [] ∧
      ∀ b ∈ cfg.allBatchIds, b ∈ cfg.allBatchIds := by
    constructor
    · rw [hn]
      intro hnil
      have := congrArg List.length hnil
      unfold dRange at this
      simp at this
      omega
    · intro b hb; exact hb
  have h0 : BInv cfg (BState.mk [] [] 0) := by
    refine ⟨?_, ?_, ?_, ?_, ?_, ?_⟩ <;> simp [bKeys]
  have h1 : BInv cfg (seedTrains cfg (BState.mk [] [] 0)) := by
    unfold seedTrains
    apply foldl_pres (BInv cfg)
    · intro s i hs
      apply updateTask_predsKept_BInv cfg _ _
        (fun t => BTask.mk t.uid false t.preds t.succs) (fun _ => rfl)
      apply findOrCreate_BInv cfg s _ _ hs
      exact ⟨hwfAll.1, hwfAll.2⟩
    · exact h0
  unfold seedMetrics
  by_cases hm : cfg.needMetrics
  · rw [if_pos hm]
    apply foldl_pres_mem (BInv cfg)
    · intro s b hb hs
      apply updateTask_predsKept_BInv cfg _ _
        (fun t => BTask.mk t.uid false t.preds t.succs) (fun _ => rfl)
      apply findOrCreate_BInv cfg s _ _ hs
      exact ⟨by simp, by simpa using hwfAll.2 b hb⟩
    · exact h1
  · rw [if_neg hm]; exact h1

/-- Popping the last work-list entry yields the expansion invariant. -/
theorem pop_BInvX (cfg : FitCfg) (st : BState) (k : TKey)
    (h : BInv cfg st) (hl : st.freshTasks.getLast? = some k) :
    BInvX cfg (BState.mk st.allTasks st.freshTasks.dropLast st.nextUid) k ∧
      wfKey cfg k := by
  obtain ⟨h1, h2, h3, h4, h5, h6⟩ := h
  have hdec : st.freshTasks = st.freshTasks.dropLast ++ [k] :=
    getLast?_some_decomp st.freshTasks k hl
  have hkfresh : k ∈ st.freshTasks := by
    rw [hdec]; exact List.mem_append.mpr (Or.inr (by simp))
  have hnd2 := h4
  rw [hdec, List.nodup_append] at hnd2
  have hknotdrop : k ∉ st.freshTasks.dropLast := by
    intro hkd
    exact hnd2.2.2 hkd (by simp)
  have hmemdrop : ∀ a ∈ st.freshTasks.dropLast, a ∈ st.freshTasks := by
    intro a ha
    rw [hdec]; exact List.mem_append.mpr (Or.inl ha)
  have hkkeys : k ∈ bKeys st := h5 k hkfresh
  have hwfk : wfKey cfg k := by
    rcases List.mem_map.mp hkkeys with ⟨q, hq, hqk⟩
    exact hqk ▸ h6 q hq
  refine ⟨⟨?_, ?_, h3, hnd2.1, ?_, h6, ?_, hkkeys, hknotdrop⟩, hwfk⟩
  · intro p hp hpf
    exact h1 p hp (hmemdrop _ hpf)
  · intro p hp hpf hpk
    apply h2 p hp
    intro hf
    rw [hdec] at hf
    rcases List.mem_append.mp hf with hf | hf
    · exact hpf hf
    · exact hpk (by simpa using hf)
  · intro k2 hk2
    exact h5 k2 (hmemdrop _ hk2)
  · intro p hp hpk
    exact h1 p hp (hpk ▸ hkfresh)

/-- Setting the popped task's preds and then populating successor lists
restores the full invariant. -/
theorem expand_restores (cfg : FitCfg) (st1 : BState) (k : TKey)
    (hX : BInvX cfg st1 k) :
    BInv cfg (appendSuccs (updateTask st1 k
      (fun t => BTask.mk t.uid t.deletable (t.preds ++ fitPredKeys cfg k)
        t.succs)) (fitPredKeys cfg k) k) := by
  obtain ⟨h1, h2, h3, h4, h5, h6, h7, h8, h9⟩ := hX
  have hst2 : BInv cfg (updateTask st1 k
      (fun t => BTask.mk t.uid t.deletable (t.preds ++ fitPredKeys cfg k)
        t.succs)) := by
    refine ⟨?_, ?_, ?_, ?_, ?_, ?_⟩
    · intro p hp hpf
      rcases mem_updateTask_elim st1 k _ p hp with ⟨q, hq, hpe⟩
      rw [fresh_updateTask] at hpf
      by_cases hqk : q.1 = k
      · exfalso
        rw [hpe, if_pos hqk] at hpf
        exact h9 (hqk ▸ hpf)
      · rw [hpe, if_neg hqk]
        exact h1 q hq (by rw [hpe, if_neg hqk] at hpf; exact hpf)
    · intro p hp hpf
      rcases mem_updateTask_elim st1 k _ p hp with ⟨q, hq, hpe⟩
      rw [fresh_updateTask] at hpf
      by_cases hqk : q.1 = k
      · rw [hpe, if_pos hqk]
        simp only
        rw [h7 q hq hqk]
        simp only [List.nil_append]
        rw [hqk]
      · rw [hpe, if_neg hqk]
        exact h2 q hq (by rw [hpe, if_neg hqk] at hpf; exact hpf) hqk
    · rw [bKeys_updateTask]; exact h3
    · rw [fresh_updateTask]; exact h4
    · rw [fresh_updateTask, bKeys_updateTask]; exact h5
    · intro p hp
      rcases mem_updateTask_elim st1 k _ p hp with ⟨q, hq, hpe⟩
      by_cases hqk : q.1 = k
      · rw [hpe, if_pos hqk]; exact h6 q hq
      · rw [hpe, if_neg hqk]; exact h6 q hq
  unfold appendSuccs
  apply foldl_pres (BInv cfg)
  · intro s p hs
    exact updateTask_predsKept_BInv cfg s p _ (fun _ => rfl) hs
  · exact hst2

/-- The work-list loop preserves the invariant and drains the list. -/
theorem buildLoop_inv (cfg : FitCfg) (n : Nat)
    (hn : cfg.allBatchIds = dRange n) (hn1 : 1 ≤ n) :
    ∀ (fuel : Nat) (st st' : BState), BInv cfg st →
      buildLoop cfg fuel st = some st' →
      BInv cfg st' ∧ st'.freshTasks = [] := by
  intro fuel
  induction fuel with
  | zero =>
    intro st st' hinv hb
    unfold buildLoop at hb
    by_cases he : st.freshTasks.isEmpty
    · rw [if_pos he] at hb
      cases hb
      exact ⟨hinv, List.isEmpty_iff.mp he⟩
    · rw [if_neg he] at hb
      simp at hb
  | succ fuel ih =>
    intro st st' hinv hb
    unfold buildLoop at hb
    cases hl : st.freshTasks.getLast? with
    | none =>
      rw [hl] at hb
      cases hb
      exact ⟨hinv, getLast?_none_nil _ hl⟩
    | some k =>
      rw [hl] at hb
      simp only at hb
      obtain ⟨hX, hwfk⟩ := pop_BInvX cfg st k hinv hl
      have hwfpreds := fitPredKeys_wf cfg n hn hn1 k hwfk
      have hX2 := foCreateMany_BInvX cfg k (fitPredKeys cfg k) hwfpreds
        (BState.mk st.allTasks st.freshTasks.dropLast st.nextUid) hX
      have hrest := expand_restores cfg _ k hX2
      have hexp : expandTask cfg
          (BState.mk st.allTasks st.freshTasks.dropLast st.nextUid) k
          = appendSuccs (updateTask (foCreateMany
              (BState.mk st.allTasks st.freshTasks.dropLast st.nextUid)
              (fitPredKeys cfg k)) k
            (fun t => BTask.mk t.uid t.deletable
              (t.preds ++ fitPredKeys cfg k) t.succs))
            (fitPredKeys cfg k) k := rfl
      rw [hexp] at hb
      exact ih _ st' hrest hb

/-- With a well-formed key, the expansion of a non-input apply task is the
claimed predecessor list: the train task at the cutoff (all batch ids when
the incremental flag is off, the fold prefix through the last batch of the
task otherwise) followed by one apply task per predecessor step over the
same batch ids. -/
theorem fitPredKeys_apply_eq (cfg : FitCfg) (n : Nat)
    (hn : cfg.allBatchIds = dRange n) (k : TKey) (hwfk : wfKey cfg k)
    (hkind : k.kind = TKind.apply) (hstep : k.stepId ≠ inputStep) :
    fitPredKeys cfg k
      = TKey.mk TKind.train k.stepId
          (if cfg.incremental then
            (List.range (getIdx (k.batchIds.getLastD []) + 1)).map
              (fun i => batchId (getFold (k.batchIds.getLastD [])) i)
          else cfg.allBatchIds) none ::
        (cfg.stepPredsF k.stepId).map
          (fun q => TKey.mk TKind.apply q k.batchIds none) := by
  obtain ⟨hne, hsub⟩ := hwfk
  obtain ⟨kk, sid, bids, ho⟩ := k
  simp only at hkind hne hsub hstep ⊢
  subst hkind
  simp only [fitPredKeys, if_neg hstep]
  have hlast : bids.getLastD [] ∈ bids := getLastD_mem bids hne []
  have hlastAll : bids.getLastD [] ∈ cfg.allBatchIds := hsub _ hlast
  rw [hn] at hlastAll
  rcases (mem_dRange n _).mp hlastAll with ⟨j, hj, hbj⟩
  have hfold : getFold (bids.getLastD []) = 100 := by
    rw [hbj]; exact getFold_batchId 100 j
  have hlenAll : cfg.allBatchIds.length = n := by
    rw [hn]; unfold dRange; simp
  by_cases hincm : cfg.incremental
  · rw [if_pos hincm, if_pos hincm]
  · rw [if_neg hincm, if_neg hincm]
    rw [hfold, hlenAll, hn]
    rfl

/-! ## Claim C5 -/

/-- Claim C5: in the graph _create_tasks_fit builds, every apply task for
a non-input step over batch ids B has as predecessors exactly the train
task for that step — over all batch ids when incremental is false, over
every batch id of the fold up to and including the last batch of B when
incremental is true — followed by one apply task per direct predecessor
step over the same batch ids B. -/
theorem fit_apply_task_preds (cfg : FitCfg) (fuel n : Nat) (st : BState)
    (hn : cfg.allBatchIds = dRange n) (hn1 : 1 ≤ n)
    (hbuild : createTasksFit cfg fuel = some st) :
    ∀ p ∈ st.allTasks, p.1.kind = TKind.apply → p.1.stepId ≠ inputStep →
      p.2.preds
        = TKey.mk TKind.train p.1.stepId
            (if cfg.incremental then
              (List.range (getIdx (p.1.batchIds.getLastD []) + 1)).map
                (fun i => batchId (getFold (p.1.batchIds.getLastD [])) i)
            else cfg.allBatchIds) none ::
          (cfg.stepPredsF p.1.stepId).map
            (fun q => TKey.mk TKind.apply q p.1.batchIds none) := by
  unfold createTasksFit at hbuild
  obtain ⟨hinv, hempty⟩ := buildLoop_inv cfg n hn hn1 fuel _ st
    (seeds_BInv cfg n hn hn1) hbuild
  intro p hp hkind hstep
  have hpreds : p.2.preds = fitPredKeys cfg p.1 := by
    apply hinv.2.1 p hp
    rw [hempty]
    simp
  have hwfp : wfKey cfg p.1 := hinv.2.2.2.2.2 p hp
  rw [hpreds]
  exact fitPredKeys_apply_eq cfg n hn p.1 hwfp hkind hstep

/-- A two-step linear pipeline over two batches used as the concrete C5
witness configuration. -/
def c5cfg : FitCfg :=
  FitCfg.mk 2 (fun _ => false) (fun _ => true) (fun _ => false)
    (fun s => if s = 0 then [inputStep] else [0]) 1 (dRange 2) false false

/-- Claim C5, witness: the graph built for the two-step pipeline over two
batches contains the apply task of step 1 over batch d0, and the theorem
gives its predecessors: the train task of step 1 over all batch ids and
the apply task of step 0 over d0. -/
theorem fit_apply_task_preds_witness :
    ∃ st, createTasksFit c5cfg 40 = some st ∧
      ∀ p ∈ st.allTasks, p.1.kind = TKind.apply → p.1.stepId ≠ inputStep →
        p.2.preds
          = TKey.mk TKind.train p.1.stepId
              (if c5cfg.incremental then
                (List.range (getIdx (p.1.batchIds.getLastD []) + 1)).map
                  (fun i => batchId (getFold (p.1.batchIds.getLastD [])) i)
              else c5cfg.allBatchIds) none ::
            (c5cfg.stepPredsF p.1.stepId).map
              (fun q => TKey.mk TKind.apply q p.1.batchIds none) := by
  refine ⟨(createTasksFit c5cfg 40).getD (BState.mk [] [] 0), ?_, ?_⟩
  · rfl
  · exact fit_apply_task_preds c5cfg 40 2 _ (by rfl) (by decide) (by rfl)


/-! ## Pipeline fit semantics (claim C1)

Operator behavior (fit, transform, the monoid interface, partial_fit)
lives outside this module, in the individual operator implementations; its
contract is modelled from the spec.  The schedule itself is translated
from _create_tasks_fit, the executor's operation dispatch and
_extract_trained_pipeline: pipelines are DAGs given by one predecessor
list per step (step_id_preds, in topological steps_list order), an apply
task feeds its trained model and the outputs of one apply task per
predecessor step (the multi-input TRANSFORM path, lines 986-1014) into
the step's transform, and the executor's arity assertions — TO_MONOID
demands exactly one pred (line 1070), PARTIAL_FIT at most two (line
1051), FIT rejects multi-input incremental steps (line 1030) — make the
run fail on associative or incremental steps with more than one
predecessor step, so the run is partial. -/

/-- Modelled from the spec: the capability class of one pipeline step —
pretrained (frozen), associative (fitted through the monoid interface) or
incremental (fitted through partial_fit). -/
inductive SKind where
  | pretrained
  | assoc
  | incr
deriving DecidableEq, Repr

/-- Modelled from the spec: the behavioral interface of one pipeline step.
Rows are integers; a batch is a list of rows; models and monoids share the
carrier M.  fitFn is ordinary whole-data fit; transformB applies a
trained model to one input batch per predecessor step (the source passes
the single batch directly, or the list of predecessor frames to a
multi-input transform); toMonoid, combine and fromMonoid are the
associative interface; partialFit0 is partial_fit on a fresh trainee and
partialFitStep on an already-trained one; preModel is the model of a
pretrained step. -/
structure StepSem (M : Type) where
  kind : SKind
  fitFn : List Int → M
  transformB : M → List (List Int) → List Int
  toMonoid : List Int → M
  combine : M → M → M
  fromMonoid : M → M
  partialFit0 : List Int → M
  partialFitStep : M → List Int → M
  preModel : M

/-- Modelled from the spec: the operator laws the framework relies on.
For an associative step, fit factors through the monoid (fit =
from_monoid ∘ to_monoid) and to_monoid is a homomorphism from data
concatenation to combine.  For an incremental step, partial_fit on a
fresh trainee is fit, and partial_fit on a model trained on xs with new
data ys is fit on xs ++ ys.  transform/predict works row by row, so on
inputs partitioned consistently (each predecessor batch split at the
same row boundary) its output is the concatenation of the per-part
outputs. -/
structure StepLaws (M : Type) (st : StepSem M) : Prop where
  assoc_fit : st.kind = SKind.assoc →
    ∀ xs, st.fitFn xs = st.fromMonoid (st.toMonoid xs)
  monoid_hom : st.kind = SKind.assoc →
    ∀ xs ys, st.toMonoid (xs ++ ys) = st.combine (st.toMonoid xs) (st.toMonoid ys)
  incr_fit0 : st.kind = SKind.incr →
    ∀ xs, st.partialFit0 xs = st.fitFn xs
  incr_step : st.kind = SKind.incr →
    ∀ xs ys, st.partialFitStep (st.fitFn xs) ys = st.fitFn (xs ++ ys)
  transform_partition : ∀ m xss yss, xss.length = yss.length →
    st.transformB m (List.zipWith (fun u v => u ++ v) xss yss)
      = st.transformB m xss ++ st.transformB m yss

/-- functools.reduce of combine over a nonempty monoid list (the COMBINE
operation, line 1099): a left fold started on the first element. -/
def reduceCombineL {M : Type} (st : StepSem M) : List M → M
  | [] => st.preModel
  | m :: ms => ms.foldl st.combine m

/-- The partial_fit chain over a nonempty batch list: the first batch is
fed to a fresh trainee (PARTIAL_FIT with a single pred, line 1053), each
later batch to the model trained on the previous ones (PARTIAL_FIT with a
train pred, line 1055). -/
def chainModel {M : Type} (st : StepSem M) : List (List Int) → M
  | [] => st.preModel
  | b :: bs => bs.foldl st.partialFitStep (st.partialFit0 b)

/-- The output batch of the apply task of predecessor p on batch index b:
the scanned raw batch for the input step, the recorded output of step p
otherwise (outs holds one per-batch output list per already-processed
step, in step order). -/
def predOut (batches : List (List Int)) (outs : List (List (List Int)))
    (p : Int) (b : Nat) : List Int :=
  if p = inputStep then batches.getD b []
  else (outs.getD p.toNat []).getD b []

/-- The input batches an apply task of a step with predecessor list ps
reads on batch index b: one batch per predecessor step, in preds order
(lines 991-1001). -/
def stepIns (batches : List (List Int)) (outs : List (List (List Int)))
    (ps : List Int) (b : Nat) : List (List Int) :=
  ps.map (fun p => predOut batches outs p b)

/-- Whether the executor's train-operation arity assertions admit the
step: with a single batch the seed train task runs FIT, which rejects
multi-input incremental steps (assert not is_incremental, line 1030);
with several batches an associative step's per-batch TO_MONOID train
task asserts exactly one pred (line 1070) and an incremental step's
PARTIAL_FIT asserts one apply pred besides the optional train pred
(lines 1051-1056), so both demand exactly one predecessor step. -/
def arityOk {M : Type} (st : StepSem M) (Nn : Nat) (nps : Nat) : Bool :=
  match st.kind with
  | SKind.pretrained => true
  | SKind.assoc => Nn == 1 || nps == 1
  | SKind.incr => nps == 1

/-- The model held by TrainTask(step, first k batch ids) after the run,
as read back by get_trained.  Nn is the total batch count: when it is 1
the seed train task has no train preds or succs and its operation is FIT
on the (vertically concatenated, lines 1032-1041) whole input; otherwise
an associative step combines the k per-batch monoids and an incremental
step runs the partial_fit chain over the k per-batch inputs ins of its
single predecessor step. -/
def stepModelD {M : Type} (st : StepSem M) (Nn : Nat) (whole : List Int)
    (ins : List (List Int)) (k : Nat) : M :=
  match st.kind with
  | SKind.pretrained => st.preModel
  | SKind.assoc =>
      if Nn = 1 then st.fitFn whole
      else st.fromMonoid (reduceCombineL st ((ins.take k).map st.toMonoid))
  | SKind.incr =>
      if Nn = 1 then st.fitFn whole
      else chainModel st (ins.take k)

/-- The models a fit run leaves in the train tasks over all batch ids,
one per step in steps_list order, or none when a train-operation arity
assertion fails.  Each pipeline step carries its predecessor list; the
apply task over batch index b reads the train task whose batch ids reach
the cutoff getIdx(b)+1 when the incremental flag is set and all Nn
batches otherwise (lines 584-595), and feeds its input batches to the
step's transform. -/
def runStepsD {M : Type} (inc : Bool) (Nn : Nat) (batches : List (List Int)) :
    List (StepSem M × List Int) → List (List (List Int)) → Option (List M)
  | [], _ => some []
  | (st, ps) :: rest, outs =>
      if arityOk st Nn ps.length then
        (runStepsD inc Nn batches rest
          (outs ++ [(List.range Nn).map (fun b =>
            st.transformB
              (stepModelD st Nn (stepIns batches outs ps 0).flatten
                ((List.range Nn).map (fun b2 => (stepIns batches outs ps b2).headD []))
                (if inc then b + 1 else Nn))
              (stepIns batches outs ps b))])).map
          (fun ms =>
            stepModelD st Nn (stepIns batches outs ps 0).flatten
              ((List.range Nn).map (fun b2 => (stepIns batches outs ps b2).headD []))
              Nn :: ms)
      else none

/-- fit_with_batches: build the fit graph over the given batches, run it,
and extract the model of each step's train task over all batch ids
(lines 1212-1230); none models a run aborted by an arity assertion. -/
def fitModels {M : Type} (stepsP : List (StepSem M × List Int)) (inc : Bool)
    (batches : List (List Int)) : Option (List M) :=
  runStepsD inc batches.length batches stepsP []

/-- The batch of predecessor p when the extracted trained pipeline runs
on one input batch x. -/
def predOut1 (x : List Int) (outs : List (List Int)) (p : Int) : List Int :=
  if p = inputStep then x else outs.getD p.toNat []

/-- Per-step output batches of the extracted trained pipeline on input
batch x: each step's transform is applied to the outputs of its
predecessor steps under its extracted model, following the rebuilt edges
of _extract_trained_pipeline. -/
def pipeOuts {M : Type} (x : List Int) :
    List (StepSem M × List Int) → List M → List (List Int) → List (List Int)
  | [], _, outs => outs
  | (st, ps) :: rest, ms, outs =>
      pipeOuts x rest ms.tail
        (outs ++ [st.transformB (ms.headD st.preModel) (ps.map (predOut1 x outs))])

/-- Predictions of the extracted trained pipeline on input batch x: the
output of the last (sink) step. -/
def predictPipe {M : Type} (stepsP : List (StepSem M × List Int))
    (ms : List M) (x : List Int) : List Int :=
  (pipeOuts x stepsP ms []).getLastD []

/-- Fit on the given batches, then predict on input batch x with the
extracted trained pipeline. -/
def predictRun {M : Type} (stepsP : List (StepSem M × List Int)) (inc : Bool)
    (batches : List (List Int)) (x : List Int) : Option (List Int) :=
  (fitModels stepsP inc batches).map (fun ms => predictPipe stepsP ms x)

theorem foldl_combine_flatten {M : Type} (st : StepSem M) (hl : StepLaws M st)
    (hk : st.kind = SKind.assoc) :
    ∀ (bs : List (List Int)) (a : List Int),
      bs.foldl (fun x y => st.combine x (st.toMonoid y)) (st.toMonoid a)
        = st.toMonoid (a ++ bs.flatten) := by
  intro bs
  induction bs with
  | nil => intro a; simp
  | cons y l ih =>
    intro a
    have h1 : st.combine (st.toMonoid a) (st.toMonoid y)
        = st.toMonoid (a ++ y) := (hl.monoid_hom hk a y).symm
    calc (y :: l).foldl (fun x y2 => st.combine x (st.toMonoid y2))
            (st.toMonoid a)
        = l.foldl (fun x y2 => st.combine x (st.toMonoid y2))
            (st.combine (st.toMonoid a) (st.toMonoid y)) := rfl
      _ = l.foldl (fun x y2 => st.combine x (st.toMonoid y2))
            (st.toMonoid (a ++ y)) := by rw [h1]
      _ = st.toMonoid ((a ++ y) ++ l.flatten) := ih (a ++ y)
      _ = st.toMonoid (a ++ (y :: l).flatten) := by
            rw [List.flatten_cons, List.append_assoc]

theorem reduceCombineL_flatten {M : Type} (st : StepSem M) (hl : StepLaws M st)
    (hk : st.kind = SKind.assoc) (b : List Int) (bs : List (List Int)) :
    reduceCombineL st ((b :: bs).map st.toMonoid)
      = st.toMonoid (b :: bs).flatten := by
  have hfold : (bs.map st.toMonoid).foldl st.combine (st.toMonoid b)
      = st.toMonoid (b ++ bs.flatten) := by
    rw [List.foldl_map]
    exact foldl_combine_flatten st hl hk bs b
  calc reduceCombineL st ((b :: bs).map st.toMonoid)
      = (bs.map st.toMonoid).foldl st.combine (st.toMonoid b) := rfl
    _ = st.toMonoid (b ++ bs.flatten) := hfold
    _ = st.toMonoid (b :: bs).flatten := by rw [List.flatten_cons]

theorem foldl_pfs_flatten {M : Type} (st : StepSem M) (hl : StepLaws M st)
    (hk : st.kind = SKind.incr) :
    ∀ (bs : List (List Int)) (a : List Int),
      bs.foldl st.partialFitStep (st.fitFn a) = st.fitFn (a ++ bs.flatten) := by
  intro bs
  induction bs with
  | nil => intro a; simp
  | cons y l ih =>
    intro a
    calc (y :: l).foldl st.partialFitStep (st.fitFn a)
        = l.foldl st.partialFitStep (st.partialFitStep (st.fitFn a) y) := rfl
      _ = l.foldl st.partialFitStep (st.fitFn (a ++ y)) := by
            rw [hl.incr_step hk a y]
      _ = st.fitFn ((a ++ y) ++ l.flatten) := ih (a ++ y)
      _ = st.fitFn (a ++ (y :: l).flatten) := by
            rw [List.flatten_cons, List.append_assoc]

theorem chainModel_flatten {M : Type} (st : StepSem M) (hl : StepLaws M st)
    (hk : st.kind = SKind.incr) (b : List Int) (bs : List (List Int)) :
    chainModel st (b :: bs) = st.fitFn (b :: bs).flatten := by
  calc chainModel st (b :: bs)
      = bs.foldl st.partialFitStep (st.partialFit0 b) := rfl
    _ = bs.foldl st.partialFitStep (st.fitFn b) := by rw [hl.incr_fit0 hk b]
    _ = st.fitFn (b ++ bs.flatten) := foldl_pfs_flatten st hl hk bs b
    _ = st.fitFn (b :: bs).flatten := by rw [List.flatten_cons]

theorem getD_range {α : Type} (d : α) :
    ∀ l : List α, (List.range l.length).map (fun b => l.getD b d) = l := by
  intro l
  induction l with
  | nil => rfl
  | cons x xs ih =>
    rw [List.length_cons, List.range_succ_eq_map]
    simp only [List.map_cons, List.map_map, Function.comp_def,
      List.getD_cons_zero, List.getD_cons_succ]
    rw [ih]

theorem flatten_nilfn {α β : Type} :
    ∀ l : List α, (l.map (fun _ => ([] : List β))).flatten = [] := by
  intro l
  induction l with
  | nil => rfl
  | cons x xs ih => simp only [List.map_cons, List.flatten_cons, ih,
      List.nil_append]

theorem zipWith_append_maps {α : Type} (f g : α → List Int) :
    ∀ l : List α,
      List.zipWith (fun u v => u ++ v) (l.map f) (l.map g)
        = l.map (fun x => f x ++ g x) := by
  intro l
  induction l with
  | nil => rfl
  | cons x xs ih => simp only [List.map_cons, List.zipWith_cons_cons, ih]

/-- Row-wise transform on all-empty inputs gives the empty batch. -/
theorem transformB_nilfn {M : Type} (st : StepSem M) (hl : StepLaws M st)
    (m : M) (ps : List Int) :
    st.transformB m (ps.map (fun _ => ([] : List Int))) = [] := by
  have hz : List.zipWith (fun u v => u ++ v)
      (ps.map (fun _ => ([] : List Int))) (ps.map (fun _ => ([] : List Int)))
      = ps.map (fun _ => ([] : List Int)) := by
    rw [zipWith_append_maps]
    simp
  have h := hl.transform_partition m (ps.map (fun _ => ([] : List Int)))
    (ps.map (fun _ => ([] : List Int))) rfl
  rw [hz] at h
  have hlen := congrArg List.length h
  rw [List.length_append] at hlen
  exact List.length_eq_zero.mp (by omega)

/-- Row-wise transform commutes with per-batch partitioning: transforming
the per-predecessor concatenations equals concatenating the per-batch
transforms. -/
theorem transformB_flatten {M : Type} (st : StepSem M) (hl : StepLaws M st)
    (m : M) (ps : List Int) (g : Int → Nat → List Int) :
    ∀ L : List Nat,
      st.transformB m (ps.map (fun p => (L.map (g p)).flatten))
        = (L.map (fun b => st.transformB m (ps.map (fun p => g p b)))).flatten := by
  intro L
  induction L with
  | nil =>
    simp only [List.map_nil, List.flatten_nil]
    exact transformB_nilfn st hl m ps
  | cons b L2 ih =>
    have hsplit : ps.map (fun p => ((b :: L2).map (g p)).flatten)
        = List.zipWith (fun u v => u ++ v) (ps.map (fun p => g p b))
            (ps.map (fun p => (L2.map (g p)).flatten)) := by
      rw [zipWith_append_maps]
      simp only [List.map_cons, List.flatten_cons]
    rw [hsplit, hl.transform_partition m _ _ (by simp), ih,
      List.map_cons, List.flatten_cons]

/-- The 1-run pred output on its only batch is the concatenation of the
N-run pred outputs, batch by batch. -/
theorem predOut_one (batchesN : List (List Int)) (outsN : List (List (List Int)))
    (Nn : Nat) (hlen : batchesN.length = Nn) (hout : ∀ o ∈ outsN, o.length = Nn)
    (p : Int) :
    predOut [batchesN.flatten] (outsN.map (fun o => [o.flatten])) p 0
      = ((List.range Nn).map (fun b => predOut batchesN outsN p b)).flatten := by
  by_cases hp : p = inputStep
  · subst hp
    simp only [predOut, eq_self_iff_true, if_true]
    rw [← hlen, getD_range]
    rfl
  · simp only [predOut, if_neg hp]
    by_cases hi : p.toNat < outsN.length
    · have hget : (outsN.map (fun o => [o.flatten])).getD p.toNat []
          = [(outsN.getD p.toNat []).flatten] := by
        rw [List.getD_eq_getElem?_getD, List.getElem?_map,
          List.getElem?_eq_getElem hi, List.getD_eq_getElem?_getD,
          List.getElem?_eq_getElem hi]
        rfl
      rw [hget]
      have hmem : outsN.getD p.toNat [] ∈ outsN := by
        rw [List.getD_eq_getElem?_getD, List.getElem?_eq_getElem hi]
        exact List.getElem_mem hi
      have holen : (outsN.getD p.toNat []).length = Nn := hout _ hmem
      rw [← holen, getD_range]
      rfl
    · have hnone : outsN[p.toNat]? = none :=
        List.getElem?_eq_none (Nat.le_of_not_lt hi)
      have hg1 : (outsN.map (fun o => [o.flatten])).getD p.toNat [] = [] := by
        rw [List.getD_eq_getElem?_getD, List.getElem?_map, hnone]
        rfl
      have hgN : outsN.getD p.toNat [] = [] := by
        rw [List.getD_eq_getElem?_getD, hnone]
        rfl
      rw [hg1, hgN]
      have hmap : (List.range Nn).map (fun b => ([] : List (List Int)).getD b [])
          = (List.range Nn).map (fun _ => ([] : List Int)) :=
        List.map_congr_left (fun b _ => rfl)
      rw [hmap, flatten_nilfn]
      rfl

/-- An arity check that passes with Nn batches also passes with one. -/
theorem arityOk_one {M : Type} (st : StepSem M) (Nn nps : Nat)
    (h : arityOk st Nn nps = true) : arityOk st 1 nps = true := by
  cases hk : st.kind with
  | pretrained => simp [arityOk, hk]
  | assoc => simp [arityOk, hk]
  | incr =>
    simp only [arityOk, hk] at h ⊢
    exact h

/-- The model the 1-batch run computes equals the model the Nn-batch run
computes, given that the whole input of the former concatenates the
per-batch inputs of the latter. -/
theorem stepModelD_one_eq {M : Type} (st : StepSem M) (hl : StepLaws M st)
    (Nn : Nat) (hN : 1 ≤ Nn) (nps : Nat)
    (harity : arityOk st Nn nps = true)
    (whole1 wholeN : List Int) (ins1 insN2 : List (List Int))
    (hlen2 : insN2.length = Nn)
    (hE1 : Nn = 1 → whole1 = wholeN)
    (hE2 : nps = 1 → whole1 = insN2.flatten) :
    stepModelD st 1 whole1 ins1 1 = stepModelD st Nn wholeN insN2 Nn := by
  cases hk : st.kind with
  | pretrained => simp only [stepModelD, hk]
  | assoc =>
    simp only [arityOk, hk, Bool.or_eq_true, beq_iff_eq] at harity
    simp only [stepModelD, hk, eq_self_iff_true, if_true]
    by_cases hn1 : Nn = 1
    · rw [if_pos hn1]
      exact congrArg st.fitFn (hE1 hn1)
    · rw [if_neg hn1]
      have hnps : nps = 1 := harity.resolve_left hn1
      obtain ⟨b, bs, hins⟩ : ∃ b bs, insN2 = b :: bs := by
        cases insN2 with
        | nil =>
          exfalso
          rw [List.length_nil] at hlen2
          omega
        | cons b bs => exact ⟨b, bs, rfl⟩
      subst hins
      have htake : (b :: bs).take Nn = b :: bs := by
        rw [← hlen2, List.take_length]
      rw [htake, reduceCombineL_flatten st hl hk b bs, hE2 hnps]
      exact hl.assoc_fit hk _
  | incr =>
    simp only [arityOk, hk, beq_iff_eq] at harity
    simp only [stepModelD, hk, eq_self_iff_true, if_true]
    by_cases hn1 : Nn = 1
    · rw [if_pos hn1]
      exact congrArg st.fitFn (hE1 hn1)
    · rw [if_neg hn1]
      obtain ⟨b, bs, hins⟩ : ∃ b bs, insN2 = b :: bs := by
        cases insN2 with
        | nil =>
          exfalso
          rw [List.length_nil] at hlen2
          omega
        | cons b bs => exact ⟨b, bs, rfl⟩
      subst hins
      have htake : (b :: bs).take Nn = b :: bs := by
        rw [← hlen2, List.take_length]
      rw [htake, chainModel_flatten st hl hk b bs, hE2 harity]

theorem range_one_eq : List.range 1 = [0] := by decide

/-- With the incremental flag off, whenever the Nn-batch run returns, the
single-batch run over the concatenated data returns the same models. -/
theorem runStepsD_one_eq {M : Type} (Nn : Nat) (hN : 1 ≤ Nn)
    (batchesN : List (List Int)) (hlen : batchesN.length = Nn) :
    ∀ stepsP : List (StepSem M × List Int),
      (∀ q ∈ stepsP, StepLaws M q.1) →
      ∀ outsN : List (List (List Int)),
        (∀ o ∈ outsN, o.length = Nn) →
        ∀ ms, runStepsD false Nn batchesN stepsP outsN = some ms →
          runStepsD false 1 [batchesN.flatten] stepsP
            (outsN.map (fun o => [o.flatten])) = some ms := by
  intro stepsP
  induction stepsP with
  | nil =>
    intro _ outsN _ ms h
    simp only [runStepsD] at h ⊢
    exact h
  | cons q rest ih =>
    obtain ⟨st, ps⟩ := q
    intro hls outsN houts ms hrun
    have hst : StepLaws M st := hls (st, ps) (by simp)
    simp only [runStepsD, Bool.false_eq_true, if_false, range_one_eq,
      List.map_cons, List.map_nil] at hrun ⊢
    by_cases harity : arityOk st Nn ps.length = true
    · rw [if_pos harity] at hrun
      rw [if_pos (arityOk_one st Nn ps.length harity)]
      set mN := stepModelD st Nn (stepIns batchesN outsN ps 0).flatten
        ((List.range Nn).map (fun b2 => (stepIns batchesN outsN ps b2).headD []))
        Nn with hmN
      set oSN := (List.range Nn).map
        (fun b => st.transformB mN (stepIns batchesN outsN ps b)) with hoSN
      set m1 := stepModelD st 1
        (stepIns [batchesN.flatten] (outsN.map (fun o => [o.flatten])) ps 0).flatten
        [(stepIns [batchesN.flatten] (outsN.map (fun o => [o.flatten])) ps 0).headD []]
        1 with hm1
      have hpred : ∀ p : Int, predOut [batchesN.flatten]
          (outsN.map (fun o => [o.flatten])) p 0
          = ((List.range Nn).map (fun b => predOut batchesN outsN p b)).flatten :=
        fun p => predOut_one batchesN outsN Nn hlen houts p
      have hIns0 : stepIns [batchesN.flatten]
          (outsN.map (fun o => [o.flatten])) ps 0
          = ps.map (fun p =>
              ((List.range Nn).map (fun b => predOut batchesN outsN p b)).flatten) := by
        unfold stepIns
        exact List.map_congr_left (fun p _ => hpred p)
      have hmodel : m1 = mN := by
        rw [hm1, hmN]
        apply stepModelD_one_eq st hst Nn hN ps.length harity
        · simp
        · intro hn1
          subst hn1
          rw [hIns0]
          simp only [range_one_eq, List.map_cons, List.map_nil,
            List.flatten_cons, List.flatten_nil, List.append_nil]
          rfl
        · intro hnps
          rw [hIns0]
          rcases List.length_eq_one.mp hnps with ⟨p0, hp0⟩
          subst hp0
          simp only [List.map_cons, List.map_nil, List.flatten_cons,
            List.flatten_nil, List.append_nil]
          congr 1
      have houtS : st.transformB mN
          (stepIns [batchesN.flatten] (outsN.map (fun o => [o.flatten])) ps 0)
          = oSN.flatten := by
        rw [hIns0, hoSN]
        exact transformB_flatten st hst mN ps
          (fun p b => predOut batchesN outsN p b) (List.range Nn)
      rcases Option.map_eq_some'.mp hrun with ⟨ms2, hrec, hms⟩
      have hih := ih (fun q2 hq2 => hls q2 (by simp [hq2])) (outsN ++ [oSN])
        (by
          intro o ho
          rcases List.mem_append.mp ho with h | h
          · exact houts o h
          · have ho2 : o = oSN := by simpa using h
            rw [ho2, hoSN]
            simp)
        ms2 hrec
      rw [List.map_append, List.map_cons, List.map_nil] at hih
      rw [hmodel, houtS, hih]
      simp only [Option.map_some']
      rw [hms]
    · rw [if_neg harity] at hrun
      exact absurd hrun (by simp)

/-- Claim C1 (amended): with the incremental flag off, for every pipeline
(any DAG of steps with their predecessor lists) whose steps satisfy the
operator laws, and every partition of the data into N >= 1 batches,
whenever fit_with_batches with batch count N returns a trained pipeline,
fit_with_batches with batch count 1 over the whole data returns one with
identical models in every step's train task over all batch ids, and the
two extracted pipelines give the same prediction on every input. -/
theorem fit_batches_equiv_amended {M : Type}
    (stepsP : List (StepSem M × List Int))
    (hls : ∀ q ∈ stepsP, StepLaws M q.1)
    (batches : List (List Int)) (hN : 1 ≤ batches.length)
    (ms : List M) (hrun : fitModels stepsP false batches = some ms) :
    fitModels stepsP false [batches.flatten] = some ms ∧
    ∀ x, predictRun stepsP false [batches.flatten] x
        = predictRun stepsP false batches x := by
  have h1 : fitModels stepsP false [batches.flatten] = some ms := by
    unfold fitModels at hrun ⊢
    have h := runStepsD_one_eq batches.length hN batches rfl stepsP hls []
      (by intro o ho; simp at ho) ms hrun
    simpa using h
  refine ⟨h1, ?_⟩
  intro x
  unfold predictRun
  rw [h1, hrun]

theorem headD_zipWith_append :
    ∀ (xss yss : List (List Int)), xss.length = yss.length →
      (List.zipWith (fun u v => u ++ v) xss yss).headD []
        = xss.headD [] ++ yss.headD [] := by
  intro xss yss h
  cases xss with
  | nil =>
    cases yss with
    | nil => rfl
    | cons y ys => simp at h
  | cons x xs =>
    cases yss with
    | nil => simp at h
    | cons y ys => rfl

/-- A concrete incremental step: fit sums the rows, transform adds the
model to every row of its single input batch; partial_fit adds the new
rows' sum. -/
def sumIncrStep : StepSem Int :=
  { kind := SKind.incr
    fitFn := fun xs => xs.sum
    transformB := fun m xss => (xss.headD []).map (fun x => x + m)
    toMonoid := fun xs => xs.sum
    combine := fun a b2 => a + b2
    fromMonoid := fun m => m
    partialFit0 := fun xs => xs.sum
    partialFitStep := fun m ys => m + ys.sum
    preModel := 0 }

/-- A concrete associative step: the monoid is the row sum under
addition, and predict outputs the model for every row of its first input
batch. -/
def sumAssocStep : StepSem Int :=
  { kind := SKind.assoc
    fitFn := fun xs => xs.sum
    transformB := fun m xss => (xss.headD []).map (fun _ => m)
    toMonoid := fun xs => xs.sum
    combine := fun a b2 => a + b2
    fromMonoid := fun m => m
    partialFit0 := fun xs => xs.sum
    partialFitStep := fun m ys => m + ys.sum
    preModel := 0 }

theorem sumIncrStep_laws : StepLaws Int sumIncrStep :=
  ⟨fun hk => absurd hk (by decide),
   fun hk => absurd hk (by decide),
   fun _ _ => rfl,
   fun _ xs ys => by
     show xs.sum + ys.sum = (xs ++ ys).sum
     rw [List.sum_append],
   fun m xss yss h => by
     show ((List.zipWith (fun u v => u ++ v) xss yss).headD []).map (fun x => x + m)
         = (xss.headD []).map (fun x => x + m) ++ (yss.headD []).map (fun x => x + m)
     rw [headD_zipWith_append xss yss h, List.map_append]⟩

theorem sumAssocStep_laws : StepLaws Int sumAssocStep :=
  ⟨fun _ _ => rfl,
   fun _ xs ys => by
     show (xs ++ ys).sum = xs.sum + ys.sum
     rw [List.sum_append],
   fun hk => absurd hk (by decide),
   fun hk => absurd hk (by decide),
   fun m xss yss h => by
     show ((List.zipWith (fun u v => u ++ v) xss yss).headD []).map (fun _ => m)
         = (xss.headD []).map (fun _ => m) ++ (yss.headD []).map (fun _ => m)
     rw [headD_zipWith_append xss yss h, List.map_append]⟩

/-- The two-step chain pipeline (incremental step reading the input,
then associative step reading step 0) used to refute the incremental
flag case of claim C1. -/
def chainStepsP : List (StepSem Int × List Int) :=
  [(sumIncrStep, [inputStep]), (sumAssocStep, [0])]

/-- A DAG pipeline with a multi-predecessor associative step: step 1
reads both the raw input and step 0's output. -/
def dagStepsP : List (StepSem Int × List Int) :=
  [(sumAssocStep, [inputStep]), (sumAssocStep, [inputStep, 0])]

theorem chainStepsP_laws : ∀ q ∈ chainStepsP, StepLaws Int q.1 := by
  intro q hq
  rcases List.mem_cons.mp hq with h | h
  · subst h; exact sumIncrStep_laws
  · have h2 : q = (sumAssocStep, [0]) := by simpa using h
    subst h2; exact sumAssocStep_laws

theorem dagStepsP_laws : ∀ q ∈ dagStepsP, StepLaws Int q.1 := by
  intro q hq
  rcases List.mem_cons.mp hq with h | h
  · subst h; exact sumAssocStep_laws
  · have h2 : q = (sumAssocStep, [inputStep, 0]) := by simpa using h
    subst h2; exact sumAssocStep_laws

/-- Claim C1, counterexample: both pipelines obey the operator laws, yet
equivalence of the batch-count-1 and batch-count-N runs fails twice over.
With the incremental flag set, the two-step chain fitted on the partition
[1],[2] predicts [7] on input [0] while the single-batch run over [1,2]
predicts [9], because the downstream step trains on outputs of
prefix-cutoff upstream models.  And on the DAG whose associative step has
two predecessor steps, the two-batch run aborts on the TO_MONOID
single-pred arity assertion while the single-batch run (whose seed train
task runs FIT on the vertical concatenation) returns, so the N-batch run
does not even produce a trained pipeline. -/
theorem fit_batches_equiv_cex :
    (∀ q ∈ chainStepsP, StepLaws Int q.1) ∧
    (∀ q ∈ dagStepsP, StepLaws Int q.1) ∧
    (predictRun chainStepsP true [[1], [2]] [0] = some [7] ∧
     predictRun chainStepsP true [[1, 2]] [0] = some [9]) ∧
    (fitModels dagStepsP false [[1], [2]] = none ∧
     fitModels dagStepsP false [[1, 2]] = some [3, 9]) :=
  ⟨chainStepsP_laws, dagStepsP_laws, ⟨rfl, rfl⟩, rfl, rfl⟩

/-- Claim C1 (amended), witness: the two-step sum pipeline on the
partition [1],[2] with the incremental flag off trains the same models
[3, 9] as the single-batch run over the concatenated data, and the two
extracted pipelines agree on input [0]. -/
theorem fit_batches_equiv_amended_witness :
    1 ≤ ([[(1 : Int)], [2]] : List (List Int)).length ∧
    fitModels chainStepsP false [([[(1 : Int)], [2]] : List (List Int)).flatten]
      = some [3, 9] ∧
    predictRun chainStepsP false
        [([[(1 : Int)], [2]] : List (List Int)).flatten] [0]
      = predictRun chainStepsP false [[1], [2]] [0] :=
  ⟨by decide,
   (fit_batches_equiv_amended chainStepsP chainStepsP_laws [[1], [2]]
     (by decide) [3, 9] (by rfl)).1,
   (fit_batches_equiv_amended chainStepsP chainStepsP_laws [[1], [2]]
     (by decide) [3, 9] (by rfl)).2 [0]⟩

end TaskGraphs
